import Mathlib

/-!
Verification of the conversation-state engine of agent-hive.

The engine under study is the in-memory conversation-history management
reproduced in src/backend/tests/test_multi_turn.py (class
DirectAgentSimulator together with validate_message_sequence and the mock
provider/skill set it drives) and, for the plain-text variant, the engine
E2EConversationEngine of src/backend/tests/test_e2e_multi_turn.py.

Modelling conventions:
- a Python str is modelled as a list of characters (Str := List Char);
  Python len(s) is List.length, s[:n] is List.take, + is ++.  This matches
  CPython, where len and slicing count code points, not bytes.
- LLMMessage(role, content, tool_calls=None, tool_call_id=None) becomes the
  structure Msg.  The only observations the engine makes of tool_calls are
  truthiness and iteration, for which the empty list and Python None agree,
  so both are modelled as [].
- Python list indexing l[i] appears through List.getD / List.get with the
  in-bounds facts established where the source guarantees them; the negative
  index round_starts[-max_rounds], taken under the guard
  len(round_starts) > max_rounds, is l[(len - max_rounds) % len].
- the mock LLM provider holds a queue of preset responses; chat_complete
  pops the next response (returning empty content and no tool calls when
  the queue is exhausted) and the streaming chat pops the next response and
  yields its content in chunks of 20 characters (whose concatenation is the
  content itself), or the fixed text "[Mock] No more responses" when the
  queue is exhausted.
-/

/-- Python str, as the engine observes it: a list of characters. -/
abbrev Str := List Char

/-- Message roles occurring in the engine. -/
inductive Role
  | system
  | user
  | assistant
  | tool
deriving DecidableEq, Repr

/-- One tool call as carried by an assistant message: the dict built by
build_tool_call, with id, function.name and function.arguments. -/
structure ToolCall where
  id : Str
  name : Str
  arguments : Str
deriving DecidableEq, Repr

/-- LLMMessage: role, content, optional tool_calls, optional tool_call_id. -/
structure Msg where
  role : Role
  content : Str
  tool_calls : List ToolCall := []
  tool_call_id : Option Str := none
deriving DecidableEq, Repr

instance : Inhabited Msg := ⟨{role := Role.user, content := []}⟩

/-- Number of user messages in a history (count_rounds in the source). -/
def userCount (h : List Msg) : Nat :=
  h.countP (fun m => decide (m.role = Role.user))

/-- Total content length of a history, the total_chars sum of
_trim_conversation_history. -/
def totalChars (h : List Msg) : Nat :=
  (h.map (fun m => m.content.length)).sum

/-- Indices of the user messages of a history, in increasing order: the
comprehension [i for i, m in enumerate(h) if m.role == "user"]
(round_starts in the source). -/
def userIdxs : List Msg → List Nat
  | [] => []
  | m :: t =>
      if m.role = Role.user then 0 :: (userIdxs t).map (· + 1)
      else (userIdxs t).map (· + 1)

lemma length_userIdxs (h : List Msg) : (userIdxs h).length = userCount h := by
  induction h with
  | nil => rfl
  | cons m t ih =>
      by_cases hm : m.role = Role.user <;>
        simp [userIdxs, userCount, List.countP_cons, hm] <;>
        simpa [userCount] using ih

/-- userIdxs lists exactly the positions holding a user message. -/
lemma mem_userIdxs {h : List Msg} {i : Nat} :
    i ∈ userIdxs h ↔ ∃ m, h[i]? = some m ∧ m.role = Role.user := by
  induction h generalizing i with
  | nil => simp [userIdxs]
  | cons m t ih =>
      by_cases hm : m.role = Role.user
      · cases i with
        | zero => simp [userIdxs, hm]
        | succ j =>
            simp only [userIdxs, if_pos hm, List.mem_cons, List.mem_map]
            constructor
            · rintro (h0 | ⟨x, hx, hx1⟩)
              · omega
              · obtain rfl : x = j := by omega
                simpa using ih.mp hx
            · intro hj
              right
              exact ⟨j, ih.mpr (by simpa using hj), rfl⟩
      · cases i with
        | zero => simp [userIdxs, hm]
        | succ j =>
            simp only [userIdxs, if_neg hm, List.mem_map]
            constructor
            · rintro ⟨x, hx, hx1⟩
              obtain rfl : x = j := by omega
              simpa using ih.mp hx
            · intro hj
              exact ⟨j, ih.mpr (by simpa using hj), rfl⟩

/-- A history starting with a user message has 0 as its first user index. -/
lemma userIdxs_head_user {m : Msg} {t : List Msg} (hm : m.role = Role.user) :
    userIdxs (m :: t) = 0 :: (userIdxs t).map (· + 1) := by
  simp [userIdxs, hm]

/-- The j-th user index is at least j. -/
lemma userIdxs_ge {h : List Msg} {j p : Nat} (hp : (userIdxs h)[j]? = some p) :
    j ≤ p := by
  induction h generalizing j p with
  | nil => simp [userIdxs] at hp
  | cons m t ih =>
      by_cases hm : m.role = Role.user
      · cases j with
        | zero => omega
        | succ k =>
            rw [userIdxs_head_user hm] at hp
            simp only [List.getElem?_cons_succ, List.getElem?_map] at hp
            obtain ⟨q, hq, rfl⟩ := Option.map_eq_some'.mp hp
            have := ih hq
            omega
      · simp only [userIdxs, if_neg hm, List.getElem?_map] at hp
        obtain ⟨q, hq, rfl⟩ := Option.map_eq_some'.mp hp
        have := ih hq
        omega

/-- The message at a user index is a user message. -/
lemma userIdxs_role {h : List Msg} {j p : Nat} (hp : (userIdxs h)[j]? = some p) :
    ∃ m, h[p]? = some m ∧ m.role = Role.user :=
  mem_userIdxs.mp (List.getElem?_mem hp)

/-- Dropping a history at its j-th user index leaves exactly
userCount h - j user messages. -/
lemma userCount_drop_userIdxs {h : List Msg} {j p : Nat}
    (hp : (userIdxs h)[j]? = some p) :
    userCount (h.drop p) = userCount h - j := by
  induction h generalizing j p with
  | nil => simp [userIdxs] at hp
  | cons m t ih =>
      by_cases hm : m.role = Role.user
      · rw [userIdxs_head_user hm] at hp
        cases j with
        | zero =>
            simp only [List.getElem?_cons_zero, Option.some.injEq] at hp
            subst hp
            simp
        | succ k =>
            simp only [List.getElem?_cons_succ, List.getElem?_map] at hp
            obtain ⟨q, hq, rfl⟩ := Option.map_eq_some'.mp hp
            have hrec := ih hq
            have hklen : k < (userIdxs t).length := (List.getElem?_eq_some.mp hq).1
            have := length_userIdxs t
            simp only [List.drop_succ_cons]
            rw [hrec]
            have hcc : userCount (m :: t) = userCount t + 1 := by
              simp [userCount, List.countP_cons, hm]
            omega
      · simp only [userIdxs, if_neg hm, List.getElem?_map] at hp
        obtain ⟨q, hq, rfl⟩ := Option.map_eq_some'.mp hp
        have hrec := ih hq
        simp only [List.drop_succ_cons]
        rw [hrec]
        simp [userCount, List.countP_cons, hm]

/-- Indexing the left part of an append. -/
lemma getElem?_append_lt {α : Type} (l₁ l₂ : List α) {i : Nat}
    (h : i < l₁.length) : (l₁ ++ l₂)[i]? = l₁[i]? := by
  rw [List.getElem?_append]
  exact if_pos h

/-- Dropping never increases the user count. -/
lemma userCount_drop_le (h : List Msg) (n : Nat) :
    userCount (h.drop n) ≤ userCount h :=
  (List.drop_sublist n h).countP_le _

/-!
## The tool-chain validator

validate_message_sequence(history): the first message of a non-empty history
must be a user message, and every tool message must be preceded, scanning
backward and stopping at the previous user message, by an assistant message
whose tool_calls field is truthy (a non-empty list).  The error strings of
the source are replaced by a small inductive carrying the same information
(the offending index).
-/

/-- One violation reported by validate_message_sequence. -/
inductive Violation
  | firstNotUser (r : Role)
  | toolWithoutCaller (i : Nat)
deriving DecidableEq, Repr

/-- The inner backward scan of validate_message_sequence, applied to the
reversed prefix before the tool message: succeed at the first assistant
message with truthy tool_calls, stop (fail) at the first user message. -/
def backScan : List Msg → Bool
  | [] => false
  | m :: rest =>
      if m.role = Role.assistant ∧ m.tool_calls ≠ [] then true
      else if m.role = Role.user then false
      else backScan rest

/-- The loop of validate_message_sequence over positions i, i+1, ... of the
history h, where rest = h.drop i. -/
def toolErrsFrom (h : List Msg) : Nat → List Msg → List Violation
  | _, [] => []
  | i, m :: rest =>
      (if m.role = Role.tool ∧ backScan ((h.take i).reverse) = false
       then [Violation.toolWithoutCaller i] else [])
      ++ toolErrsFrom h (i + 1) rest

/-- validate_message_sequence. -/
def validate (h : List Msg) : List Violation :=
  match h with
  | [] => []
  | m :: _ =>
      (if m.role ≠ Role.user then [Violation.firstNotUser m.role] else [])
      ++ toolErrsFrom h 0 h

/-- The scan succeeds exactly when some assistant message with non-empty
tool_calls occurs before any user message. -/
lemma backScan_eq_true_iff (L : List Msg) :
    backScan L = true ↔
      ∃ (j : Nat) (a : Msg), L[j]? = some a ∧ a.role = Role.assistant ∧ a.tool_calls ≠ [] ∧
        ∀ (k : Nat) (mk : Msg), k < j → L[k]? = some mk → mk.role ≠ Role.user := by
  induction L with
  | nil => simp [backScan]
  | cons m T ih =>
      by_cases hatc : m.role = Role.assistant ∧ m.tool_calls ≠ []
      · simp only [backScan, if_pos hatc]
        constructor
        · intro _
          exact ⟨0, m, by simp, hatc.1, hatc.2, fun k mk hk => by omega⟩
        · intro _; trivial
      · by_cases hu : m.role = Role.user
        · simp only [backScan, if_neg hatc, if_pos hu]
          constructor
          · intro hfalse; cases hfalse
          · rintro ⟨j, a, hja, ha1, ha2, hnone⟩
            cases j with
            | zero =>
                simp only [List.getElem?_cons_zero, Option.some.injEq] at hja
                subst hja
                exact absurd ha1 (by rw [hu]; intro hc; cases hc)
            | succ j' =>
                exact absurd hu (hnone 0 m (by omega) (by simp))
        · simp only [backScan, if_neg hatc, if_neg hu, ih]
          constructor
          · rintro ⟨j, a, hja, ha1, ha2, hnone⟩
            refine ⟨j + 1, a, by simpa using hja, ha1, ha2, ?_⟩
            intro k mk hk hmk
            cases k with
            | zero =>
                simp only [List.getElem?_cons_zero, Option.some.injEq] at hmk
                subst hmk; exact hu
            | succ k' =>
                exact hnone k' mk (by omega) (by simpa using hmk)
          · rintro ⟨j, a, hja, ha1, ha2, hnone⟩
            cases j with
            | zero =>
                simp only [List.getElem?_cons_zero, Option.some.injEq] at hja
                subst hja
                exact absurd ⟨ha1, ha2⟩ hatc
            | succ j' =>
                refine ⟨j', a, by simpa using hja, ha1, ha2, ?_⟩
                intro k mk hk hmk
                exact hnone (k + 1) mk (by omega) (by simpa using hmk)

/-- Within history h, position i holds a tool message whose backward scan
(stopping at the previous user message) reaches an assistant message with
non-empty tool_calls. -/
def toolOKAt (h : List Msg) (i : Nat) : Prop :=
  ∃ (j : Nat) (a : Msg), j < i ∧ h[j]? = some a ∧ a.role = Role.assistant ∧ a.tool_calls ≠ [] ∧
    ∀ (k : Nat) (mk : Msg), j < k → k < i → h[k]? = some mk → mk.role ≠ Role.user

/-- The backward scan from position i, in terms of absolute positions. -/
lemma backScan_take_reverse (h : List Msg) (i : Nat) (hi : i ≤ h.length) :
    backScan ((h.take i).reverse) = true ↔ toolOKAt h i := by
  induction i with
  | zero =>
      simp only [List.take_zero, List.reverse_nil, backScan, toolOKAt]
      constructor
      · intro hfalse; cases hfalse
      · rintro ⟨j, a, hj, _⟩; omega
  | succ i ih =>
      have hilt : i < h.length := by omega
      obtain ⟨m, hm⟩ : ∃ m, h[i]? = some m := ⟨_, List.getElem?_eq_getElem hilt⟩
      have htake : h.take (i + 1) = h.take i ++ [m] := by
        rw [List.take_succ, hm]; rfl
      rw [htake, List.reverse_append, List.reverse_singleton]
      simp only [List.singleton_append]
      have ihh := ih (by omega)
      by_cases hatc : m.role = Role.assistant ∧ m.tool_calls ≠ []
      · simp only [backScan, if_pos hatc]
        constructor
        · intro _
          exact ⟨i, m, by omega, hm, hatc.1, hatc.2, fun k mk h1 h2 => by omega⟩
        · intro _; trivial
      · by_cases hu : m.role = Role.user
        · simp only [backScan, if_neg hatc, if_pos hu]
          constructor
          · intro hfalse; cases hfalse
          · rintro ⟨j, a, hj, hja, ha1, ha2, hnone⟩
            rcases Nat.lt_or_ge j i with hji | hji
            · exact absurd hu (hnone i m hji (by omega) hm)
            · have : j = i := by omega
              subst this
              rw [hm] at hja
              cases hja
              exact absurd ha1 (by rw [hu]; intro hc; cases hc)
        · simp only [backScan, if_neg hatc, if_neg hu, ihh]
          constructor
          · rintro ⟨j, a, hj, hja, ha1, ha2, hnone⟩
            refine ⟨j, a, by omega, hja, ha1, ha2, ?_⟩
            intro k mk h1 h2 hmk
            rcases Nat.lt_or_ge k i with hki | hki
            · exact hnone k mk h1 hki hmk
            · have : k = i := by omega
              subst this
              rw [hm] at hmk; cases hmk; exact hu
          · rintro ⟨j, a, hj, hja, ha1, ha2, hnone⟩
            have hji : j < i := by
              rcases Nat.lt_or_ge j i with hji | hji
              · exact hji
              · have : j = i := by omega
                subst this
                rw [hm] at hja; cases hja
                exact absurd ⟨ha1, ha2⟩ hatc
            exact ⟨j, a, hji, hja, ha1, ha2,
              fun k mk h1 h2 hmk => hnone k mk h1 (by omega) hmk⟩

/-- The position loop reports nothing exactly when every tool position from i
onward scans successfully. -/
lemma toolErrsFrom_eq_nil_iff (h : List Msg) (i : Nat) (rest : List Msg) :
    toolErrsFrom h i rest = [] ↔
      ∀ (j : Nat) (m : Msg), rest[j]? = some m → m.role = Role.tool →
        backScan ((h.take (i + j)).reverse) = true := by
  induction rest generalizing i with
  | nil => simp [toolErrsFrom]
  | cons m rest ih =>
      simp only [toolErrsFrom, List.append_eq_nil]
      constructor
      · rintro ⟨h1, h2⟩
        intro j mj hj hrole
        cases j with
        | zero =>
            simp only [List.getElem?_cons_zero, Option.some.injEq] at hj
            subst hj
            by_cases hsc : backScan ((h.take (i + 0)).reverse) = true
            · simpa using hsc
            · rw [if_pos ⟨hrole, by simpa using (Bool.not_eq_true _).mp hsc⟩] at h1
              cases h1
        | succ j' =>
            have := (ih (i + 1)).mp h2 j' mj (by simpa using hj) hrole
            simpa [Nat.add_assoc, Nat.add_comm 1 j'] using this
      · intro hall
        constructor
        · by_cases hrole : m.role = Role.tool
          · have := hall 0 m (by simp) hrole
            rw [if_neg]
            rintro ⟨_, hsc⟩
            rw [show i + 0 = i from rfl] at this
            rw [hsc] at this
            cases this
          · rw [if_neg]; rintro ⟨hc, _⟩; exact hrole hc
        · rw [ih (i + 1)]
          intro j mj hj hrole
          have := hall (j + 1) mj (by simpa using hj) hrole
          simpa [Nat.add_assoc, Nat.add_comm 1 j] using this

/-- validate returns no violations exactly when a non-empty history starts
with a user message and every tool message scans back to an assistant
message with non-empty tool_calls without crossing a user message. -/
lemma validate_eq_nil_iff (h : List Msg) :
    validate h = [] ↔
      (∀ m : Msg, h.head? = some m → m.role = Role.user) ∧
      (∀ (i : Nat) (m : Msg), h[i]? = some m → m.role = Role.tool → toolOKAt h i) := by
  match h with
  | [] => simp [validate]
  | m0 :: t =>
      simp only [validate, List.append_eq_nil]
      constructor
      · rintro ⟨h1, h2⟩
        constructor
        · intro m hm
          simp only [List.head?_cons, Option.some.injEq] at hm
          subst hm
          by_contra hne
          rw [if_pos hne] at h1
          cases h1
        · intro i m hi hrole
          have hlen : i < (m0 :: t).length := (List.getElem?_eq_some.mp hi).1
          have := (toolErrsFrom_eq_nil_iff (m0 :: t) 0 (m0 :: t)).mp h2 i m hi hrole
          rw [← backScan_take_reverse (m0 :: t) i (by omega)]
          simpa using this
      · rintro ⟨h1, h2⟩
        constructor
        · rw [if_neg]
          simp only [ne_eq, Decidable.not_not]
          exact h1 m0 rfl
        · rw [toolErrsFrom_eq_nil_iff]
          intro j m hj hrole
          have hlen : j < (m0 :: t).length := (List.getElem?_eq_some.mp hj).1
          have := h2 j m hj hrole
          rw [show (0 : Nat) + j = j by omega]
          exact (backScan_take_reverse (m0 :: t) j (by omega)).mpr this

/-!
## The retention trimmer

_trim_conversation_history(max_rounds) of DirectAgentSimulator, shared
verbatim (with self.max_rounds for max_rounds and MAX_CHARS for
MAX_HISTORY_CHARS) by E2EConversationEngine._trim_history.  Stage A drops
everything before round_starts[-max_rounds] when the round count exceeds
max_rounds; stage B repeatedly drops the oldest round while the running
total exceeds the byte budget and more than 2 rounds remain.  The byte
budget is the local constant 24000 in the source; it is kept as a
parameter maxChars here so the bounds can be quantified, and instantiated
with 24000 wherever the engine calls the trimmer.  The running total is a
Python int, modelled as Int.
-/

/-- round_starts[1] if len(round_starts) > 1 else len(history): where the
second round starts. -/
def nextRoundStart (h : List Msg) : Nat :=
  if 1 < (userIdxs h).length then (userIdxs h).getD 1 0 else h.length

lemma nextRoundStart_eq (h : List Msg) (hlen : 1 < (userIdxs h).length) :
    (userIdxs h)[1]? = some (nextRoundStart h) := by
  rw [nextRoundStart, if_pos hlen, List.getD_eq_getElem?_getD,
    List.getElem?_eq_getElem hlen]
  rfl

lemma nextRoundStart_pos (h : List Msg) (hlen : 1 < (userIdxs h).length) :
    1 ≤ nextRoundStart h ∧ nextRoundStart h < h.length := by
  have h1 := nextRoundStart_eq h hlen
  refine ⟨userIdxs_ge h1, ?_⟩
  obtain ⟨m, hm, _⟩ := userIdxs_role h1
  exact (List.getElem?_eq_some.mp hm).1

lemma drop_nextRoundStart_shorter (h : List Msg)
    (hlen : 1 < (userIdxs h).length) :
    (h.drop (nextRoundStart h)).length < h.length := by
  obtain ⟨h1, h2⟩ := nextRoundStart_pos h hlen
  rw [List.length_drop]
  omega

/-- Stage B, the byte-budget loop, with explicit fuel (each iteration
shortens the history by at least one message, so h.length iterations always
reach the loop exit): while total > maxChars and more than two rounds
remain, drop the oldest round and subtract its byte contribution. -/
def byteTrimAux (maxChars : Nat) : Nat → List Msg → Int → List Msg
  | 0, h, _ => h
  | fuel + 1, h, total =>
      if (maxChars : Int) < total ∧ 2 < (userIdxs h).length then
        byteTrimAux maxChars fuel (h.drop (nextRoundStart h))
          (total - (totalChars (h.take (nextRoundStart h)) : Int))
      else h

/-- Stage B: the while loop run to completion (h.length fuel suffices). -/
def byteTrim (maxChars : Nat) (h : List Msg) (total : Int) : List Msg :=
  byteTrimAux maxChars h.length h total

lemma byteTrimAux_nil (maxChars : Nat) (fuel : Nat) (total : Int) :
    byteTrimAux maxChars fuel [] total = [] := by
  cases fuel with
  | zero => rfl
  | succ fuel =>
      rw [byteTrimAux, if_neg]
      rintro ⟨_, hlt⟩
      simp [userIdxs] at hlt

/-- Any fuel at least h.length computes the same result. -/
lemma byteTrimAux_congr (maxChars : Nat) :
    ∀ (f1 f2 : Nat) (h : List Msg) (total : Int),
      h.length ≤ f1 → h.length ≤ f2 →
      byteTrimAux maxChars f1 h total = byteTrimAux maxChars f2 h total := by
  intro f1
  induction f1 with
  | zero =>
      intro f2 h total h1 h2
      have : h = [] := List.length_eq_zero.mp (by omega)
      subst this
      rw [byteTrimAux_nil, byteTrimAux_nil]
  | succ f1 ih =>
      intro f2 h total h1 h2
      cases f2 with
      | zero =>
          have : h = [] := List.length_eq_zero.mp (by omega)
          subst this
          rw [byteTrimAux_nil, byteTrimAux_nil]
      | succ f2 =>
          rw [byteTrimAux, byteTrimAux]
          by_cases hc : (maxChars : Int) < total ∧ 2 < (userIdxs h).length
          · rw [if_pos hc, if_pos hc]
            have hd := drop_nextRoundStart_shorter h (by omega)
            exact ih f2 _ _ (by omega) (by omega)
          · rw [if_neg hc, if_neg hc]

/-- The loop equation of stage B. -/
lemma byteTrim_step (maxChars : Nat) (h : List Msg) (total : Int) :
    byteTrim maxChars h total
      = if (maxChars : Int) < total ∧ 2 < (userIdxs h).length then
          byteTrim maxChars (h.drop (nextRoundStart h))
            (total - (totalChars (h.take (nextRoundStart h)) : Int))
        else h := by
  cases h with
  | nil =>
      rw [byteTrim, if_neg]
      · simp [byteTrimAux_nil]
      · rintro ⟨_, hlt⟩
        simp [userIdxs] at hlt
  | cons m t =>
      rw [byteTrim]
      show byteTrimAux maxChars (t.length + 1) (m :: t) total = _
      rw [byteTrimAux]
      by_cases hc : (maxChars : Int) < total
          ∧ 2 < (userIdxs (m :: t)).length
      · rw [if_pos hc, if_pos hc, byteTrim]
        have hd := drop_nextRoundStart_shorter (m :: t) (by omega)
        apply byteTrimAux_congr
        · simp only [List.length_cons] at hd
          omega
        · exact le_rfl
      · rw [if_neg hc, if_neg hc]

/-- Stage A, the round-count trim: when the round count exceeds max_rounds,
drop every message before round_starts[-max_rounds] (Python negative
indexing: the index (len - max_rounds) % len under the guard
len > max_rounds). -/
def roundTrim (maxRounds : Nat) (h : List Msg) : List Msg :=
  if maxRounds < (userIdxs h).length then
    h.drop ((userIdxs h).getD
      (((userIdxs h).length - maxRounds) % (userIdxs h).length) 0)
  else h

/-- _trim_conversation_history: early return on an empty history, then
stage A followed by stage B started with the recomputed total. -/
def trimHistory (maxRounds maxChars : Nat) (h : List Msg) : List Msg :=
  if h = [] then h
  else byteTrim maxChars (roundTrim maxRounds h)
    (totalChars (roundTrim maxRounds h))

lemma totalChars_append (a b : List Msg) :
    totalChars (a ++ b) = totalChars a + totalChars b := by
  simp [totalChars]

lemma totalChars_take_drop (h : List Msg) (n : Nat) :
    (totalChars h : Int) - (totalChars (h.take n) : Int)
      = (totalChars (h.drop n) : Int) := by
  have : totalChars h = totalChars (h.take n) + totalChars (h.drop n) := by
    conv_lhs => rw [← List.take_append_drop n h]
    exact totalChars_append _ _
  omega

lemma byteTrim_eq_self {maxChars : Nat} {h : List Msg} {total : Int}
    (hc : ¬((maxChars : Int) < total ∧ 2 < (userIdxs h).length)) :
    byteTrim maxChars h total = h := by
  rw [byteTrim_step, if_neg hc]

/-- Stage B, started with the true total, ends within budget or at the
two-round floor. -/
lemma byteTrim_exit (maxChars : Nat) :
    ∀ n (h : List Msg), h.length ≤ n →
      totalChars (byteTrim maxChars h (totalChars h)) ≤ maxChars ∨
      userCount (byteTrim maxChars h (totalChars h)) ≤ 2 := by
  intro n
  induction n with
  | zero =>
      intro h hlen
      have : h = [] := List.length_eq_zero.mp (by omega)
      subst this
      rw [byteTrim_eq_self (by simp [userIdxs])]
      left; simp [totalChars]
  | succ n ih =>
      intro h hlen
      by_cases hc : (maxChars : Int) < (totalChars h : Int)
          ∧ 2 < (userIdxs h).length
      · rw [byteTrim_step, if_pos hc, totalChars_take_drop]
        exact ih (h.drop (nextRoundStart h))
          (by have := drop_nextRoundStart_shorter h (by omega); omega)
      · rw [byteTrim_eq_self hc]
        rw [not_and_or] at hc
        rcases hc with hc | hc
        · left
          have := length_userIdxs h
          omega
        · right
          have := length_userIdxs h
          omega

/-- Stage B either leaves the history alone or drops it at a user index. -/
lemma byteTrim_shape (maxChars : Nat) :
    ∀ n (h : List Msg) (total : Int), h.length ≤ n →
      byteTrim maxChars h total = h ∨
      ∃ p m, h[p]? = some m ∧ m.role = Role.user ∧
        byteTrim maxChars h total = h.drop p := by
  intro n
  induction n with
  | zero =>
      intro h total hlen
      have : h = [] := List.length_eq_zero.mp (by omega)
      subst this
      left
      exact byteTrim_eq_self (by simp [userIdxs])
  | succ n ih =>
      intro h total hlen
      by_cases hc : (maxChars : Int) < total ∧ 2 < (userIdxs h).length
      · rw [byteTrim_step, if_pos hc]
        have hq := nextRoundStart_eq h (by omega)
        obtain ⟨mq, hmq, hmqrole⟩ := userIdxs_role hq
        have hdle : (h.drop (nextRoundStart h)).length ≤ n := by
          have := drop_nextRoundStart_shorter h (by omega); omega
        rcases ih (h.drop (nextRoundStart h)) _ hdle with heq | ⟨p, m, hp, hrole, heq⟩
        · right
          exact ⟨nextRoundStart h, mq, hmq, hmqrole, heq⟩
        · right
          rw [List.getElem?_drop] at hp
          refine ⟨nextRoundStart h + p, m, hp, hrole, ?_⟩
          rw [heq, List.drop_drop, Nat.add_comm]
      · left
        exact byteTrim_eq_self hc

/-- Stage A either leaves the history alone or drops it at a user index. -/
lemma roundTrim_shape (maxRounds : Nat) (h : List Msg) :
    roundTrim maxRounds h = h ∨
    ∃ p m, h[p]? = some m ∧ m.role = Role.user ∧
      roundTrim maxRounds h = h.drop p := by
  rw [roundTrim]
  by_cases hc : maxRounds < (userIdxs h).length
  · rw [if_pos hc]
    right
    have hidx : ((userIdxs h).length - maxRounds) % (userIdxs h).length
        < (userIdxs h).length := Nat.mod_lt _ (by omega)
    have hsome : (userIdxs h)[((userIdxs h).length - maxRounds)
        % (userIdxs h).length]?
        = some ((userIdxs h).getD (((userIdxs h).length - maxRounds)
          % (userIdxs h).length) 0) := by
      rw [List.getD_eq_getElem?_getD, List.getElem?_eq_getElem hidx]
      rfl
    obtain ⟨m, hm, hrole⟩ := userIdxs_role hsome
    exact ⟨_, m, hm, hrole, rfl⟩
  · rw [if_neg hc]
    left; rfl

/-- The whole trimmer either leaves the history alone or drops it at a user
index. -/
lemma trimHistory_shape (maxRounds maxChars : Nat) (h : List Msg) :
    trimHistory maxRounds maxChars h = h ∨
    ∃ p m, h[p]? = some m ∧ m.role = Role.user ∧
      trimHistory maxRounds maxChars h = h.drop p := by
  rw [trimHistory]
  by_cases h0 : h = []
  · left; rw [if_pos h0]
  · rw [if_neg h0]
    rcases roundTrim_shape maxRounds h with hA | ⟨p, m, hp, hrole, hA⟩
    · rw [hA]
      exact byteTrim_shape maxChars h.length h _ le_rfl
    · rw [hA]
      rcases byteTrim_shape maxChars (h.drop p).length (h.drop p) _ le_rfl
        with hB | ⟨q, mq, hq, hqrole, hB⟩
      · rw [hB]
        exact Or.inr ⟨p, m, hp, hrole, rfl⟩
      · rw [hB, List.drop_drop]
        rw [List.getElem?_drop] at hq
        exact Or.inr ⟨p + q, mq, hq, hqrole, by rw [Nat.add_comm]⟩

lemma userCount_byteTrim_le (maxChars : Nat) (h : List Msg) (total : Int) :
    userCount (byteTrim maxChars h total) ≤ userCount h := by
  rcases byteTrim_shape maxChars h.length h total le_rfl with heq | ⟨p, m, _, _, heq⟩
  · rw [heq]
  · rw [heq]; exact userCount_drop_le h p

lemma userCount_roundTrim_le_self (maxRounds : Nat) (h : List Msg) :
    userCount (roundTrim maxRounds h) ≤ userCount h := by
  rcases roundTrim_shape maxRounds h with heq | ⟨p, m, _, _, heq⟩
  · rw [heq]
  · rw [heq]; exact userCount_drop_le h p

/-- With a positive round bound, stage A leaves at most maxRounds rounds. -/
lemma userCount_roundTrim_le (maxRounds : Nat) (hR : 1 ≤ maxRounds)
    (h : List Msg) : userCount (roundTrim maxRounds h) ≤ maxRounds := by
  rw [roundTrim]
  by_cases hc : maxRounds < (userIdxs h).length
  · rw [if_pos hc]
    have hlen := length_userIdxs h
    have hmod : ((userIdxs h).length - maxRounds) % (userIdxs h).length
        = (userIdxs h).length - maxRounds := Nat.mod_eq_of_lt (by omega)
    rw [hmod]
    have hidx : (userIdxs h).length - maxRounds < (userIdxs h).length := by omega
    have hsome : (userIdxs h)[(userIdxs h).length - maxRounds]?
        = some ((userIdxs h).getD ((userIdxs h).length - maxRounds) 0) := by
      rw [List.getD_eq_getElem?_getD, List.getElem?_eq_getElem hidx]
      rfl
    rw [userCount_drop_userIdxs hsome]
    omega
  · rw [if_neg hc]
    have hlen := length_userIdxs h
    omega

/-- With round bound 0 and at least one round, stage A drops everything
before the first user message. -/
lemma roundTrim_zero_head_user (h : List Msg) (h1 : 1 ≤ userCount h) :
    ∃ m, (roundTrim 0 h).head? = some m ∧ m.role = Role.user := by
  rw [roundTrim]
  have hlen := length_userIdxs h
  rw [if_pos (by omega)]
  rw [Nat.sub_zero, Nat.mod_self]
  have hsome : (userIdxs h)[0]? = some ((userIdxs h).getD 0 0) := by
    rw [List.getD_eq_getElem?_getD, List.getElem?_eq_getElem (by omega)]
    rfl
  obtain ⟨m, hm, hrole⟩ := userIdxs_role hsome
  exact ⟨m, by rw [List.head?_drop]; exact hm, hrole⟩

/-- A history whose head is a user message is untouched by stage A with
round bound 0 (Python: round_starts[-0] is round_starts[0] = 0). -/
lemma roundTrim_zero_of_head_user {h : List Msg} {m : Msg}
    (hm : h.head? = some m) (hrole : m.role = Role.user) :
    roundTrim 0 h = h := by
  match h, hm with
  | m :: t, rfl =>
      rw [roundTrim]
      by_cases hc : 0 < (userIdxs (m :: t)).length
      · rw [if_pos hc, Nat.sub_zero, Nat.mod_self]
        rw [userIdxs_head_user hrole]
        rfl
      · rw [if_neg hc]

lemma roundTrim_eq_self_of_le {maxRounds : Nat} {h : List Msg}
    (hle : userCount h ≤ maxRounds) : roundTrim maxRounds h = h := by
  rw [roundTrim, if_neg]
  have := length_userIdxs h
  omega

/-- Stage B keeps a user-headed history user-headed. -/
lemma byteTrim_head_user (maxChars : Nat) (h : List Msg) (total : Int)
    {m : Msg} (hm : h.head? = some m) (hrole : m.role = Role.user) :
    ∃ m', (byteTrim maxChars h total).head? = some m' ∧ m'.role = Role.user := by
  rcases byteTrim_shape maxChars h.length h total le_rfl with heq | ⟨p, mp, hp, hprole, heq⟩
  · exact ⟨m, by rw [heq]; exact hm, hrole⟩
  · exact ⟨mp, by rw [heq, List.head?_drop]; exact hp, hprole⟩

/-- Claim C4: the trimmer is idempotent: re-trimming an already-trimmed
history with the same round bound and byte budget changes nothing, for every
history and every pair of bounds. -/
theorem claim_C4_trim_idempotent (maxRounds maxChars : Nat) (h : List Msg) :
    trimHistory maxRounds maxChars (trimHistory maxRounds maxChars h)
      = trimHistory maxRounds maxChars h := by
  by_cases h0 : h = []
  · subst h0
    have hnil : trimHistory maxRounds maxChars [] = [] := by
      rw [trimHistory, if_pos rfl]
    simp only [hnil]
  · have hdef : trimHistory maxRounds maxChars h
        = byteTrim maxChars (roundTrim maxRounds h)
          (totalChars (roundTrim maxRounds h)) := by
      rw [trimHistory, if_neg h0]
    by_cases h10 : trimHistory maxRounds maxChars h = []
    · rw [trimHistory, if_pos h10]
    · have hA : roundTrim maxRounds (trimHistory maxRounds maxChars h)
          = trimHistory maxRounds maxChars h := by
        rcases Nat.eq_zero_or_pos maxRounds with hR | hR
        · subst hR
          by_cases hcnt : userCount (trimHistory 0 maxChars h) = 0
          · apply roundTrim_eq_self_of_le
            omega
          · have hcg : 1 ≤ userCount (roundTrim 0 h) := by
              have h1 : userCount (trimHistory 0 maxChars h)
                  ≤ userCount (roundTrim 0 h) := by
                rw [hdef]; exact userCount_byteTrim_le _ _ _
              omega
            have hch : 1 ≤ userCount h := by
              have := userCount_roundTrim_le_self 0 h
              omega
            obtain ⟨m, hm, hrole⟩ := roundTrim_zero_head_user h hch
            obtain ⟨m', hm', hrole'⟩ :=
              byteTrim_head_user maxChars (roundTrim 0 h)
                (totalChars (roundTrim 0 h)) hm hrole
            rw [← hdef] at hm'
            exact roundTrim_zero_of_head_user hm' hrole'
        · apply roundTrim_eq_self_of_le
          have h1 : userCount (trimHistory maxRounds maxChars h)
              ≤ userCount (roundTrim maxRounds h) := by
            rw [hdef]; exact userCount_byteTrim_le _ _ _
          have h2 := userCount_roundTrim_le maxRounds hR h
          omega
      have hB : totalChars (trimHistory maxRounds maxChars h) ≤ maxChars ∨
          userCount (trimHistory maxRounds maxChars h) ≤ 2 := by
        rw [hdef]
        exact byteTrim_exit maxChars (roundTrim maxRounds h).length _ le_rfl
      rw [trimHistory, if_neg h10, hA]
      apply byteTrim_eq_self
      have hlen := length_userIdxs (trimHistory maxRounds maxChars h)
      rintro ⟨hb1, hb2⟩
      rcases hB with hB | hB
      · omega
      · omega

/-- Claim C5: the byte-budget stage never reduces a history that holds at
least two rounds below two rounds, whatever the budget and the running
total (in particular even when the result still exceeds the budget). -/
lemma byteTrim_floor_aux (maxChars : Nat) :
    ∀ n (h : List Msg) (total : Int), h.length ≤ n → 2 ≤ userCount h →
      2 ≤ userCount (byteTrim maxChars h total) := by
  intro n
  induction n with
  | zero =>
      intro h total hlen h2
      have : h = [] := List.length_eq_zero.mp (by omega)
      subst this
      simp [userCount] at h2
  | succ n ih =>
      intro h total hlen h2
      by_cases hc : (maxChars : Int) < total ∧ 2 < (userIdxs h).length
      · rw [byteTrim_step, if_pos hc]
        have hq := nextRoundStart_eq h (by omega)
        have hcnt := userCount_drop_userIdxs hq
        have hlu := length_userIdxs h
        apply ih
        · have := drop_nextRoundStart_shorter h (by omega); omega
        · omega
      · rw [byteTrim_eq_self hc]
        exact h2

theorem claim_C5_byteTrim_floor (maxChars : Nat) (h : List Msg) (total : Int)
    (h2 : 2 ≤ userCount h) :
    2 ≤ userCount (byteTrim maxChars h total) :=
  byteTrim_floor_aux maxChars h.length h total le_rfl h2

/-- A concrete two-round history for the C5 witness. -/
def twoRounds : List Msg :=
  [{role := Role.user, content := ['a', 'b', 'c']},
   {role := Role.assistant, content := ['d', 'e', 'f']},
   {role := Role.user, content := ['g', 'h', 'i']},
   {role := Role.assistant, content := ['j', 'k', 'l']}]

/-- Witness for C5: a two-round history whose 12 characters exceed the
budget 3 is still kept whole. -/
theorem claim_C5_witness : 2 ≤ userCount (byteTrim 3 twoRounds 12) :=
  claim_C5_byteTrim_floor 3 twoRounds 12 (by decide)

/-!
## The turn orchestrator

DirectAgentSimulator.execute_task(task), driven by the programmable
MockLLMProvider (a queue of preset responses) and MockSkillSet (a table of
preset skill results).  A turn script packs the provider queue, the skill
table and whether get_tool_definitions() returns a non-empty list.
-/

/-- One preset provider response: content and tool_calls (None and the empty
list are both modelled as []). -/
structure MockResponse where
  content : Str := []
  tool_calls : List ToolCall := []
deriving DecidableEq, Repr, Inhabited

/-- MockSkillResult: success flag, result text, optional error text. -/
structure SkillResult where
  success : Bool := true
  result : Str := []
  error : Option Str := none
deriving DecidableEq, Repr

/-- Everything external that one execute_task call consumes: the task text,
the provider queue, the skill table and whether tool definitions exist. -/
structure TurnScript where
  task : Str
  responses : List MockResponse
  skill : Str → SkillResult
  hasTools : Bool

/-- The fixed system prompt rebuilt at the start of every call. -/
def systemPromptMsg : Msg :=
  { role := Role.system, content := "你是一个AI助手，正处于多轮对话中。".data }

def userMsg (t : Str) : Msg := { role := Role.user, content := t }

def assistantReply (t : Str) : Msg := { role := Role.assistant, content := t }

def FAIL_TEXT : Str := "执行失败".data

def NO_RESULT : Str := "无结果".data

def NO_MORE : Str := "[Mock] No more responses".data

/-- The truncation marker appended to an over-long tool result. -/
def truncMark : Str := "\n...(结果已截取前1500字符)".data

/-- result.result if result.success else (result.error or "执行失败"). -/
def toolResultStr (r : SkillResult) : Str :=
  if r.success then r.result
  else match r.error with
    | some e => if e = [] then FAIL_TEXT else e
    | none => FAIL_TEXT

/-- The tool message appended for one tool call: content is
str(tool_result_str) if tool_result_str else "无结果", tool_call_id is the
id of the call. -/
def toolMsg (skill : Str → SkillResult) (tc : ToolCall) : Msg :=
  { role := Role.tool,
    content := if toolResultStr (skill tc.name) = [] then NO_RESULT
               else toolResultStr (skill tc.name),
    tool_call_id := some tc.id }

/-- The assistant message appended when a response carries tool calls:
content (content or "") and the returned tool_calls. -/
def assistantCallMsg (r : MockResponse) : Msg :=
  { role := Role.assistant, content := r.content, tool_calls := r.tool_calls }

/-- The tool-calling loop (for tool_round in range(max_tool_rounds)) over
the provider queue: break when tool definitions are absent; pop the next
response (empty content, no tool calls when the queue is exhausted); break
when it carries no tool calls; otherwise append the assistant message
carrying the calls and one tool message per call, in order, and loop.
Returns the extended message list and the remaining queue. -/
def toolLoop (skill : Str → SkillResult) (hasTools : Bool) :
    Nat → List MockResponse → List Msg → List Msg × List MockResponse
  | 0, q, ms => (ms, q)
  | fuel + 1, q, ms =>
      if hasTools = false then (ms, q)
      else
        match q with
        | [] => (ms, [])
        | r :: q' =>
            if r.tool_calls = [] then (ms, q')
            else
              toolLoop skill hasTools fuel q'
                (ms ++ assistantCallMsg r :: r.tool_calls.map (toolMsg skill))

/-- The final streaming chat call of execute_task: pop the next response and
yield its content in chunks of 20 characters (the chunks concatenate back to
the content), or the fixed fallback text when the queue is exhausted.
Returns the accumulated full_response and the remaining queue. -/
def chatStreamText : List MockResponse → Str × List MockResponse
  | [] => (NO_MORE, [])
  | r :: q' => (r.content, q')

/-- Commit-time truncation of one over-long tool message: content replaced
by its first 1500 characters plus the marker (the rebuilt message keeps
role and tool_call_id; tool_calls falls back to the constructor default). -/
def truncateTool (m : Msg) : Msg :=
  if m.role = Role.tool ∧ m.content ≠ [] ∧ 1500 < m.content.length then
    { role := m.role, content := m.content.take 1500 ++ truncMark,
      tool_call_id := m.tool_call_id }
  else m

/-- Python whitespace test for str.strip(). -/
def isPySpace (c : Char) : Bool := c.isWhitespace

/-- full_response.strip(). -/
def pyStrip (s : Str) : Str :=
  ((s.dropWhile isPySpace).reverse.dropWhile isPySpace).reverse

/-- The ephemeral transcript after the tool loop: [system prompt] + history
+ [user task] extended by the loop, with the remaining queue. -/
def turnMessages (ts : TurnScript) (history : List Msg) :
    List Msg × List MockResponse :=
  toolLoop ts.skill ts.hasTools 5 ts.responses
    (systemPromptMsg :: (history ++ [userMsg ts.task]))

/-- full_response: what the final streaming chat call yields. -/
def turnReply (ts : TurnScript) (history : List Msg) : Str :=
  (chatStreamText (turnMessages ts history).2).1

/-- messages[1 + len(history):], the turn's newly produced messages. -/
def turnNewMessages (ts : TurnScript) (history : List Msg) : List Msg :=
  (turnMessages ts history).1.drop (1 + history.length)

/-- The committed history before trimming: the old history, the new
messages with over-long tool contents truncated, and a final plain
assistant message carrying full_response when it is non-blank. -/
def committedHistory (ts : TurnScript) (history : List Msg) : List Msg :=
  history ++ ((turnNewMessages ts history).map truncateTool
    ++ (if pyStrip (turnReply ts history) = [] then []
        else [assistantReply (turnReply ts history)]))

/-- execute_task: run the tool loop and the final streaming call, commit,
trim with max_rounds=6 (and the byte budget 24000), and return the reply. -/
def executeTask (ts : TurnScript) (history : List Msg) : List Msg × Str :=
  (trimHistory 6 24000 (committedHistory ts history), turnReply ts history)

/-- A sequence of turns against one session, starting from the empty
conversation history. -/
def runTurns (turns : List TurnScript) : List Msg :=
  turns.foldl (fun h ts => (executeTask ts h).1) []

/-!
## Structure of the messages a turn commits
-/

/-- What the tool loop appends: only assistant and tool messages, and every
tool message is preceded by an assistant message with non-empty
tool_calls. -/
def ChainProp (tl : List Msg) : Prop :=
  (∀ m ∈ tl, m.role = Role.assistant ∨ m.role = Role.tool) ∧
  (∀ m ∈ tl, m.role = Role.assistant → m.tool_calls ≠ []) ∧
  (∀ (i : Nat) (m : Msg), tl[i]? = some m → m.role = Role.tool →
    ∃ (j : Nat) (a : Msg), j < i ∧ tl[j]? = some a ∧
      a.role = Role.assistant ∧ a.tool_calls ≠ [])

lemma chainProp_nil : ChainProp [] := by
  refine ⟨?_, ?_, ?_⟩
  · intro m hm; cases hm
  · intro m hm; cases hm
  · intro i m hm; simp at hm

lemma chainProp_block (skill : Str → SkillResult) (r : MockResponse)
    (hr : r.tool_calls ≠ []) (tl : List Msg) (hch : ChainProp tl) :
    ChainProp (assistantCallMsg r
               :: (r.tool_calls.map (toolMsg skill) ++ tl)) := by
  obtain ⟨hroles, hassist, htools⟩ := hch
  refine ⟨?_, ?_, ?_⟩
  · intro m hm
    rcases List.mem_cons.mp hm with rfl | hm
    · left; rfl
    · rcases List.mem_append.mp hm with hm | hm
      · obtain ⟨tc, _, rfl⟩ := List.mem_map.mp hm
        right; rfl
      · exact hroles m hm
  · intro m hm
    rcases List.mem_cons.mp hm with rfl | hm
    · intro _; exact hr
    · rcases List.mem_append.mp hm with hm | hm
      · obtain ⟨tc, _, rfl⟩ := List.mem_map.mp hm
        intro hc; cases hc
      · exact hassist m hm
  · intro i m hi hrole
    cases i with
    | zero =>
        simp only [List.getElem?_cons_zero, Option.some.injEq] at hi
        subst hi
        cases hrole
    | succ k =>
        simp only [List.getElem?_cons_succ] at hi
        rcases Nat.lt_or_ge k (r.tool_calls.map (toolMsg skill)).length
          with hk | hk
        · exact ⟨0, assistantCallMsg r, by omega, by simp, rfl, hr⟩
        · rw [List.getElem?_append_right hk] at hi
          obtain ⟨j, a, hj, hja, ha1, ha2⟩ :=
            htools _ m hi hrole
          refine ⟨j + (r.tool_calls.map (toolMsg skill)).length + 1, a,
            by omega, ?_, ha1, ha2⟩
          simp only [List.getElem?_cons_succ]
          rw [List.getElem?_append_right (by omega)]
          rw [Nat.add_sub_cancel]
          exact hja

/-- The tool loop only appends, and what it appends satisfies ChainProp. -/
lemma toolLoop_spec (skill : Str → SkillResult) (hasTools : Bool) :
    ∀ (fuel : Nat) (q : List MockResponse) (ms : List Msg),
      ∃ tl q', toolLoop skill hasTools fuel q ms = (ms ++ tl, q')
        ∧ ChainProp tl := by
  intro fuel
  induction fuel with
  | zero =>
      intro q ms
      exact ⟨[], q, by simp [toolLoop], chainProp_nil⟩
  | succ fuel ih =>
      intro q ms
      by_cases hht : hasTools = false
      · exact ⟨[], q, by simp [toolLoop, hht], chainProp_nil⟩
      · match q with
        | [] => exact ⟨[], [], by simp [toolLoop, hht], chainProp_nil⟩
        | r :: q' =>
            by_cases htc : r.tool_calls = []
            · exact ⟨[], q', by simp [toolLoop, hht, htc], chainProp_nil⟩
            · obtain ⟨tl, q'', heq, hch⟩ := ih q'
                (ms ++ assistantCallMsg r :: r.tool_calls.map (toolMsg skill))
              refine ⟨assistantCallMsg r
                      :: (r.tool_calls.map (toolMsg skill) ++ tl), q'', ?_,
                chainProp_block skill r htc tl hch⟩
              have hstep : toolLoop skill hasTools (fuel + 1) (r :: q') ms
                  = toolLoop skill hasTools fuel q'
                    (ms ++ assistantCallMsg r
                          :: r.tool_calls.map (toolMsg skill)) := by
                rw [toolLoop]
                rw [if_neg hht, if_neg htc]
              rw [hstep, heq]
              simp

/-- The turn's new messages are the user message followed by a ChainProp
tail. -/
lemma turnNewMessages_eq (ts : TurnScript) (history : List Msg) :
    ∃ tl, turnNewMessages ts history = userMsg ts.task :: tl ∧ ChainProp tl := by
  obtain ⟨tl, q', heq, hch⟩ := toolLoop_spec ts.skill ts.hasTools 5 ts.responses
    (systemPromptMsg :: (history ++ [userMsg ts.task]))
  refine ⟨tl, ?_, hch⟩
  rw [turnNewMessages, turnMessages, heq]
  simp only [List.cons_append]
  rw [show (1 + history.length) = history.length + 1 by omega]
  rw [List.drop_succ_cons, List.append_assoc, List.drop_left]
  rfl

lemma truncateTool_role (m : Msg) : (truncateTool m).role = m.role := by
  rw [truncateTool]
  by_cases hc : m.role = Role.tool ∧ m.content ≠ [] ∧ 1500 < m.content.length
  · rw [if_pos hc]
  · rw [if_neg hc]

lemma truncateTool_of_role_ne (m : Msg) (hm : m.role ≠ Role.tool) :
    truncateTool m = m := by
  rw [truncateTool, if_neg]
  rintro ⟨hc, _⟩
  exact hm hc

/-- One committed round: a user head, no further user message, and every
tool message preceded within the round by an assistant message with
non-empty tool_calls. -/
def RoundSeg (seg : List Msg) : Prop :=
  (∃ m, seg.head? = some m ∧ m.role = Role.user) ∧
  (∀ (i : Nat) (m : Msg), seg[i]? = some m → 1 ≤ i → m.role ≠ Role.user) ∧
  (∀ (i : Nat) (m : Msg), seg[i]? = some m → m.role = Role.tool →
    ∃ (j : Nat) (a : Msg), j < i ∧ seg[j]? = some a ∧
      a.role = Role.assistant ∧ a.tool_calls ≠ [])

lemma roundSeg_of_chain (t : Str) (tl : List Msg) (hch : ChainProp tl)
    (rep : List Msg) (hrep : ∀ m ∈ rep, m.role = Role.assistant) :
    RoundSeg ((userMsg t :: tl).map truncateTool ++ rep) := by
  obtain ⟨hroles, hassist, htools⟩ := hch
  have hfirst : truncateTool (userMsg t) = userMsg t :=
    truncateTool_of_role_ne _ (by intro hc; cases hc)
  rw [List.map_cons, hfirst]
  have hgetmap : ∀ (k : Nat), (tl.map truncateTool)[k]? = (tl[k]?).map truncateTool :=
    fun k => List.getElem?_map truncateTool tl k
  refine ⟨⟨userMsg t, rfl, rfl⟩, ?_, ?_⟩
  · intro i m hi h1
    cases i with
    | zero => omega
    | succ k =>
        simp only [List.cons_append, List.getElem?_cons_succ] at hi
        rcases Nat.lt_or_ge k (tl.map truncateTool).length with hk | hk
        · rw [getElem?_append_lt _ _ hk, hgetmap k] at hi
          obtain ⟨x, hx, rfl⟩ := Option.map_eq_some'.mp hi
          have := hroles x (List.getElem?_mem hx)
          rw [truncateTool_role]
          rcases this with hx1 | hx1 <;> rw [hx1] <;> intro hc <;> cases hc
        · rw [List.getElem?_append_right hk] at hi
          have := hrep m (List.getElem?_mem hi)
          rw [this]; intro hc; cases hc
  · intro i m hi hrole
    cases i with
    | zero =>
        simp only [List.cons_append, List.getElem?_cons_zero,
          Option.some.injEq] at hi
        subst hi
        cases hrole
    | succ k =>
        simp only [List.cons_append, List.getElem?_cons_succ] at hi
        rcases Nat.lt_or_ge k (tl.map truncateTool).length with hk | hk
        · rw [getElem?_append_lt _ _ hk, hgetmap k] at hi
          obtain ⟨x, hx, rfl⟩ := Option.map_eq_some'.mp hi
          have hxrole : x.role = Role.tool := by
            have := truncateTool_role x
            rw [hrole] at this
            exact this.symm
          obtain ⟨j, a, hj, hja, ha1, ha2⟩ := htools k x hx hxrole
          have hja' : ((userMsg t :: tl.map truncateTool) ++ rep)[j + 1]?
              = some a := by
            simp only [List.cons_append, List.getElem?_cons_succ]
            rw [getElem?_append_lt _ _ (by
              have := (List.getElem?_eq_some.mp hja).1
              simpa using (by omega : j < tl.length))]
            rw [hgetmap j, hja]
            simp [truncateTool_of_role_ne a (by rw [ha1]; intro hc; cases hc)]
          exact ⟨j + 1, a, by omega, by simpa using hja', ha1, ha2⟩
        · rw [List.getElem?_append_right hk] at hi
          have := hrep m (List.getElem?_mem hi)
          rw [this] at hrole
          cases hrole

/-- Appending a well-formed round keeps the validator silent. -/
lemma validate_append_seg (h seg : List Msg) (hv : validate h = [])
    (hs : RoundSeg seg) : validate (h ++ seg) = [] := by
  obtain ⟨⟨mh, hmh, hmhrole⟩, hnouser, htools⟩ := hs
  rw [validate_eq_nil_iff] at hv ⊢
  obtain ⟨hhead, htool⟩ := hv
  constructor
  · intro m hm
    cases h with
    | nil =>
        simp only [List.nil_append] at hm
        rw [hmh] at hm
        injection hm with hm
        rw [← hm]; exact hmhrole
    | cons a t =>
        simp only [List.cons_append, List.head?_cons, Option.some.injEq] at hm
        rw [← hm]
        exact hhead a rfl
  · intro i m hi hrole
    rcases Nat.lt_or_ge i h.length with hlt | hge
    · rw [getElem?_append_lt _ _ hlt] at hi
      obtain ⟨j, a2, hj, hja, ha1, ha2, hnone⟩ := htool i m hi hrole
      have hjlt : j < h.length := by omega
      refine ⟨j, a2, hj, by rw [getElem?_append_lt _ _ hjlt]; exact hja,
        ha1, ha2, ?_⟩
      intro k mk hk1 hk2 hmk
      rw [getElem?_append_lt _ _ (by omega)] at hmk
      exact hnone k mk hk1 hk2 hmk
    · rw [List.getElem?_append_right hge] at hi
      have hx1 : 1 ≤ i - h.length := by
        rcases Nat.eq_zero_or_pos (i - h.length) with h0 | h0
        · exfalso
          rw [h0] at hi
          cases seg with
          | nil => cases hi
          | cons s0 rest =>
              simp only [List.getElem?_cons_zero, Option.some.injEq] at hi
              subst hi
              simp only [List.head?_cons, Option.some.injEq] at hmh
              rw [← hmh] at hmhrole
              rw [hmhrole] at hrole
              cases hrole
        · exact h0
      obtain ⟨j, a2, hj, hja, ha1, ha2⟩ := htools (i - h.length) m hi hrole
      refine ⟨h.length + j, a2, by omega, ?_, ha1, ha2, ?_⟩
      · rw [List.getElem?_append_right (by omega : h.length ≤ h.length + j)]
        rw [Nat.add_sub_cancel_left]
        exact hja
      · intro k mk hk1 hk2 hmk
        have hkge : h.length ≤ k := by omega
        rw [List.getElem?_append_right hkge] at hmk
        apply hnouser (k - h.length) mk hmk
        omega

/-- Dropping a validator-silent history at a user message keeps it silent. -/
lemma validate_drop_user (h : List Msg) (p : Nat) (m : Msg)
    (hp : h[p]? = some m) (hrole : m.role = Role.user)
    (hv : validate h = []) : validate (h.drop p) = [] := by
  rw [validate_eq_nil_iff] at hv ⊢
  obtain ⟨hhead, htool⟩ := hv
  constructor
  · intro m1 hm1
    rw [List.head?_drop, hp] at hm1
    injection hm1 with hm1
    rw [← hm1]; exact hrole
  · intro i mt hi hroleT
    rw [List.getElem?_drop] at hi
    have hi1 : 1 ≤ i := by
      rcases Nat.eq_zero_or_pos i with h0 | h0
      · exfalso
        rw [h0] at hi
        rw [show p + 0 = p from rfl, hp] at hi
        injection hi with hi
        rw [← hi] at hroleT
        rw [hrole] at hroleT
        cases hroleT
      · exact h0
    obtain ⟨j, a2, hj, hja, ha1, ha2, hnone⟩ := htool (p + i) mt hi hroleT
    have hpj : p ≤ j := by
      by_contra hlt
      push_neg at hlt
      exact (hnone p m (by omega) (by omega) hp) hrole
    refine ⟨j - p, a2, by omega, ?_, ha1, ha2, ?_⟩
    · rw [List.getElem?_drop, show p + (j - p) = j by omega]
      exact hja
    · intro k mk hk1 hk2 hmk
      rw [List.getElem?_drop] at hmk
      exact hnone (p + k) mk (by omega) (by omega) hmk

/-- Trimming a validator-silent history keeps it silent. -/
lemma validate_trimHistory (maxRounds maxChars : Nat) (h : List Msg)
    (hv : validate h = []) :
    validate (trimHistory maxRounds maxChars h) = [] := by
  rcases trimHistory_shape maxRounds maxChars h with heq | ⟨p, m, hp, hrole, heq⟩
  · rw [heq]; exact hv
  · rw [heq]; exact validate_drop_user h p m hp hrole hv

/-- One committed turn keeps the validator silent. -/
lemma validate_executeTask (ts : TurnScript) (h : List Msg)
    (hv : validate h = []) : validate (executeTask ts h).1 = [] := by
  obtain ⟨tl, hnew, hch⟩ := turnNewMessages_eq ts h
  have hseg : RoundSeg ((turnNewMessages ts h).map truncateTool
      ++ (if pyStrip (turnReply ts h) = [] then []
          else [assistantReply (turnReply ts h)])) := by
    rw [hnew]
    apply roundSeg_of_chain ts.task tl hch
    intro m hm
    by_cases hcond : pyStrip (turnReply ts h) = []
    · rw [if_pos hcond] at hm; cases hm
    · rw [if_neg hcond] at hm
      rcases List.mem_singleton.mp hm with rfl
      rfl
  have hcommit : validate (committedHistory ts h) = [] := by
    rw [committedHistory]
    exact validate_append_seg h _ hv hseg
  exact validate_trimHistory 6 24000 _ hcommit

/-- Claim C1: after every committed turn — whatever mix of tool and
non-tool rounds the scripts produce — the validator returns no violations
on the stored history; in particular trimming never separates a retained
tool message from the assistant message that requested it. -/
theorem claim_C1_validator_silent (turns : List TurnScript) :
    validate (runTurns turns) = [] := by
  induction turns using List.reverseRecOn with
  | nil => rfl
  | append_singleton l t ih =>
      rw [runTurns, List.foldl_append]
      simp only [List.foldl_cons, List.foldl_nil]
      exact validate_executeTask t (runTurns l) ih

/-- Messages of the trimmed history come from the committed history. -/
lemma mem_executeTask_subset {ts : TurnScript} {h : List Msg} {m : Msg}
    (hm : m ∈ (executeTask ts h).1) : m ∈ committedHistory ts h := by
  rcases trimHistory_shape 6 24000 (committedHistory ts h) with heq | ⟨p, mp, _, _, heq⟩
  · rw [executeTask] at hm
    rw [heq] at hm
    exact hm
  · rw [executeTask] at hm
    rw [heq] at hm
    exact List.drop_subset _ _ hm

/-- One turn only commits user, assistant and tool messages on top of the
previous history. -/
lemma roles_executeTask (ts : TurnScript) (h : List Msg)
    (hinv : ∀ m ∈ h, m.role ≠ Role.system) :
    ∀ m ∈ (executeTask ts h).1, m.role ≠ Role.system := by
  intro m hm
  have hsub := mem_executeTask_subset hm
  rw [committedHistory] at hsub
  rcases List.mem_append.mp hsub with hmm | hmm
  · exact hinv m hmm
  rcases List.mem_append.mp hmm with hmm | hmm
  · obtain ⟨x, hx, rfl⟩ := List.mem_map.mp hmm
    rw [truncateTool_role]
    obtain ⟨tl, hnew, hch⟩ := turnNewMessages_eq ts h
    rw [hnew] at hx
    rcases List.mem_cons.mp hx with rfl | hx
    · intro hc; cases hc
    · rcases hch.1 x hx with h1 | h1 <;> rw [h1] <;> intro hc <;> cases hc
  · by_cases hcond : pyStrip (turnReply ts h) = []
    · rw [if_pos hcond] at hmm; cases hmm
    · rw [if_neg hcond] at hmm
      rcases List.mem_singleton.mp hmm with rfl
      intro hc; cases hc

/-- Claim C10: the stored history never contains a system-role message —
after every sequence of turns, each stored message has role user, assistant
or tool (the system prompt lives only in the ephemeral transcript). -/
theorem claim_C10_no_system_messages (turns : List TurnScript) :
    ∀ m ∈ runTurns turns,
      m.role = Role.user ∨ m.role = Role.assistant ∨ m.role = Role.tool := by
  have hns : ∀ m ∈ runTurns turns, m.role ≠ Role.system := by
    induction turns using List.reverseRecOn with
    | nil => intro m hm; cases hm
    | append_singleton l t ih =>
        rw [runTurns, List.foldl_append]
        simp only [List.foldl_cons, List.foldl_nil]
        exact roles_executeTask t (runTurns l) ih
  intro m hm
  have := hns m hm
  cases hr : m.role with
  | system => exact absurd hr this
  | user => left; rfl
  | assistant => right; left; rfl
  | tool => right; right; rfl

/-- A skill table returning a fixed small success. -/
def okSkill : Str → SkillResult :=
  fun _ => { success := true, result := "ok".data, error := none }

/-- A one-response no-tool turn used by witnesses. -/
def witTurn : TurnScript :=
  { task := "hi".data, responses := [{ content := "fine".data }],
    skill := okSkill, hasTools := false }

/-- Witness for C10 at a concrete run. -/
theorem claim_C10_witness :
    (userMsg "hi".data).role = Role.user
      ∨ (userMsg "hi".data).role = Role.assistant
      ∨ (userMsg "hi".data).role = Role.tool :=
  claim_C10_no_system_messages [witTurn] (userMsg "hi".data) (by decide)

/-!
## Tool-result truncation (claim C3)

The source bounds a tool message at commit time by
len(msg.content) > 1500, i.e. 1500 characters (code points), and keeps the
first 1500 characters plus the marker.  The spec states the bound in
bytes; the two differ on multi-byte characters, which the counterexample
below exhibits via the UTF-8 byte count.
-/

/-- UTF-8 byte length of a Python string (what "bytes" would measure). -/
def utf8Len (s : Str) : Nat := (s.map Char.utf8Size).sum

/-- Claim C3, amended from bytes to characters: provided every tool message
already stored respects the bound, every tool message stored after one more
committed turn has content of at most 1500 + len(marker) characters: longer
tool results are cut to their first 1500 characters plus the marker,
shorter ones are stored unchanged. -/
theorem claim_C3_tool_content_bound (ts : TurnScript) (h : List Msg)
    (hinv : ∀ m ∈ h, m.role = Role.tool →
      m.content.length ≤ 1500 + truncMark.length) :
    ∀ m ∈ (executeTask ts h).1, m.role = Role.tool →
      m.content.length ≤ 1500 + truncMark.length := by
  intro m hm hrole
  have hsub := mem_executeTask_subset hm
  rw [committedHistory] at hsub
  rcases List.mem_append.mp hsub with hmm | hmm
  · exact hinv m hmm hrole
  rcases List.mem_append.mp hmm with hmm | hmm
  · obtain ⟨x, hx, rfl⟩ := List.mem_map.mp hmm
    rw [truncateTool]
    by_cases hc : x.role = Role.tool ∧ x.content ≠ [] ∧ 1500 < x.content.length
    · rw [if_pos hc]
      have h15 := hc.2.2
      simp only [List.length_append, List.length_take]
      omega
    · rw [if_neg hc]
      rw [truncateTool, if_neg hc] at hrole
      by_contra hbig
      push_neg at hbig
      apply hc
      refine ⟨hrole, ?_, by omega⟩
      intro hnil
      rw [hnil] at hbig
      simp at hbig
  · by_cases hcond : pyStrip (turnReply ts h) = []
    · rw [if_pos hcond] at hmm; cases hmm
    · rw [if_neg hcond] at hmm
      rcases List.mem_singleton.mp hmm with rfl
      cases hrole

/-- A tool call and a turn issuing it, with a short tool result. -/
def smallCall : ToolCall :=
  { id := "id1".data, name := "search".data, arguments := "a".data }

def smallToolTurn : TurnScript :=
  { task := "q".data,
    responses := [ { content := "c".data, tool_calls := [smallCall] },
                   { content := [], tool_calls := [] },
                   { content := "r".data } ],
    skill := okSkill, hasTools := true }

/-- Witness for C3 at a concrete committed tool message. -/
theorem claim_C3_witness :
    (toolMsg okSkill smallCall).content.length ≤ 1500 + truncMark.length :=
  claim_C3_tool_content_bound smallToolTurn []
    (by intro m hm; cases hm) (toolMsg okSkill smallCall)
    (by decide) (by decide)

/-- A 1501-character CJK tool result (4503 UTF-8 bytes). -/
def bigResult : Str := List.replicate 1501 '数'

def bigSkill : Str → SkillResult :=
  fun _ => { success := true, result := bigResult, error := none }

def bigToolTurn : TurnScript :=
  { task := "q".data,
    responses := [ { content := "c".data, tool_calls := [smallCall] },
                   { content := [], tool_calls := [] },
                   { content := "r".data } ],
    skill := bigSkill, hasTools := true }

set_option maxRecDepth 100000 in
/-- Counterexample to C3 as stated (bytes): the stored tool message of this
turn is truncated to 1500 characters, which is 4500 UTF-8 bytes — far above
the claimed ceiling + len(marker) bytes. -/
theorem claim_C3_counterexample :
    ((executeTask bigToolTurn []).1.getD 2 default).role = Role.tool ∧
    1500 + utf8Len truncMark
      < utf8Len ((executeTask bigToolTurn []).1.getD 2 default).content := by
  constructor
  · decide
  · decide

/-!
## The final reply message (claim C9)
-/

/-- Number of plain assistant messages (no tool calls) in a list. -/
def plainAssistantCount (l : List Msg) : Nat :=
  l.countP (fun m => decide (m.role = Role.assistant) && decide (m.tool_calls = []))

lemma getLast?_drop_of_lt {α : Type} :
    ∀ (p : Nat) (l : List α), p < l.length → (l.drop p).getLast? = l.getLast? := by
  intro p
  induction p with
  | zero => intro l _; rfl
  | succ p ih =>
      intro l hl
      cases l with
      | nil => simp at hl
      | cons x t =>
          simp only [List.drop_succ_cons]
          rw [ih t (by simpa using hl)]
          cases t with
          | nil => simp at hl
          | cons y t' => rfl

/-- Claim C9, amended with the non-blank proviso the source imposes: when
the reply text is non-blank, the commit appends it as exactly one final
plain assistant message after the turn's other new messages, and that
message is still the last message of the stored (trimmed) history.  (A
blank reply appends no assistant message at all, see the
counterexample.) -/
theorem claim_C9_reply_appended (ts : TurnScript) (h : List Msg)
    (hr : pyStrip (turnReply ts h) ≠ []) :
    committedHistory ts h
      = (h ++ (turnNewMessages ts h).map truncateTool)
        ++ [assistantReply (turnReply ts h)] ∧
    plainAssistantCount ((committedHistory ts h).drop h.length) = 1 ∧
    (executeTask ts h).1.getLast? = some (assistantReply (turnReply ts h)) := by
  have hc1 : committedHistory ts h
      = (h ++ (turnNewMessages ts h).map truncateTool)
        ++ [assistantReply (turnReply ts h)] := by
    rw [committedHistory, if_neg hr]
    exact (List.append_assoc _ _ _).symm
  have hcount : plainAssistantCount ((committedHistory ts h).drop h.length)
      = 1 := by
    rw [committedHistory, if_neg hr, List.drop_left]
    obtain ⟨tl, hnew, hch⟩ := turnNewMessages_eq ts h
    rw [hnew, plainAssistantCount, List.countP_append]
    have hmap0 : ((userMsg ts.task :: tl).map truncateTool).countP
        (fun m => decide (m.role = Role.assistant)
          && decide (m.tool_calls = [])) = 0 := by
      rw [List.countP_eq_zero]
      intro m hm
      obtain ⟨x, hx, rfl⟩ := List.mem_map.mp hm
      rcases List.mem_cons.mp hx with rfl | hx
      · rw [truncateTool_of_role_ne _ (by intro hc; cases hc)]
        simp [userMsg]
      · rcases hch.1 x hx with hxr | hxr
        · rw [truncateTool_of_role_ne _ (by rw [hxr]; intro hc; cases hc)]
          have := hch.2.1 x hx hxr
          simp [hxr, this]
        · have : (truncateTool x).role = Role.tool := by
            rw [truncateTool_role, hxr]
          simp [this]
    rw [hmap0]
    simp [plainAssistantCount, assistantReply]
  have hclast : (committedHistory ts h).getLast?
      = some (assistantReply (turnReply ts h)) := by
    rw [hc1]
    simp
  have hlast : (executeTask ts h).1.getLast?
      = some (assistantReply (turnReply ts h)) := by
    show (trimHistory 6 24000 (committedHistory ts h)).getLast? = _
    rcases trimHistory_shape 6 24000 (committedHistory ts h)
      with heq | ⟨p, mp, hp, hrole, heq⟩
    · rw [heq, hclast]
    · rw [heq]
      have hplen : p < (committedHistory ts h).length :=
        (List.getElem?_eq_some.mp hp).1
      rw [getLast?_drop_of_lt p _ hplen, hclast]
  exact ⟨hc1, hcount, hlast⟩

/-- Witness for C9: the concrete no-tool turn with the non-blank reply. -/
theorem claim_C9_witness :
    committedHistory witTurn []
      = ([] ++ (turnNewMessages witTurn []).map truncateTool)
        ++ [assistantReply (turnReply witTurn [])] ∧
    plainAssistantCount ((committedHistory witTurn []).drop ([] : List Msg).length) = 1 ∧
    (executeTask witTurn []).1.getLast?
      = some (assistantReply (turnReply witTurn [])) :=
  claim_C9_reply_appended witTurn [] (by decide)

/-- A turn whose streamed reply is empty. -/
def blankReplyTurn : TurnScript :=
  { task := "q".data, responses := [{ content := [] }],
    skill := okSkill, hasTools := false }

/-- Counterexample to C9 as stated: a completed turn with a blank reply
appends no assistant message at all — the stored history is just the user
message, with zero plain assistant messages. -/
theorem claim_C9_counterexample :
    (executeTask blankReplyTurn []).1 = [userMsg "q".data] ∧
    plainAssistantCount (executeTask blankReplyTurn []).1 = 0 :=
  ⟨by decide, by decide⟩

/-!
## Where the reply text comes from (claim C6)
-/

/-- When the first no-tool-calls response ends the loop, the remaining queue
is exactly what followed it. -/
lemma toolLoop_queue_after_stop (skill : Str → SkillResult)
    (stop : MockResponse) (hstop : stop.tool_calls = []) :
    ∀ (pre : List MockResponse) (fuel : Nat) (q : List MockResponse)
      (ms : List Msg),
      (∀ r ∈ pre, r.tool_calls ≠ []) → pre.length < fuel →
      (toolLoop skill true fuel (pre ++ stop :: q) ms).2 = q := by
  intro pre
  induction pre with
  | nil =>
      intro fuel q ms _ hlen
      cases fuel with
      | zero => omega
      | succ f =>
          simp only [List.nil_append]
          rw [toolLoop]
          rw [if_neg (by simp)]
          rw [if_pos hstop]
  | cons r pre ih =>
      intro fuel q ms hpre hlen
      cases fuel with
      | zero => simp at hlen
      | succ f =>
          have hr : r.tool_calls ≠ [] := hpre r (List.mem_cons_self r pre)
          simp only [List.cons_append]
          rw [toolLoop]
          rw [if_neg (by simp)]
          rw [if_neg hr]
          exact ih f q _ (fun x hx => hpre x (List.mem_cons_of_mem r hx))
            (by simpa using hlen)

/-- Claim C6, amended: the reply of a completed turn is NOT the text of the
completion response that ended the tool loop; it is the content of the next
queued response, consumed by the separate final streaming call.  When the
loop is ended by a no-tool-calls response (fewer than max_tool_rounds = 5
earlier tool rounds), the reply is the content of the response right after
it. -/
theorem claim_C6_reply_from_stream (h : List Msg) (task : Str)
    (skill : Str → SkillResult) (pre : List MockResponse)
    (stop fin : MockResponse) (rest : List MockResponse)
    (hpre : ∀ r ∈ pre, r.tool_calls ≠ []) (hstop : stop.tool_calls = [])
    (hlen : pre.length < 5) :
    turnReply { task := task, responses := pre ++ stop :: fin :: rest,
                skill := skill, hasTools := true } h = fin.content := by
  rw [turnReply, turnMessages]
  rw [toolLoop_queue_after_stop skill stop hstop pre 5 (fin :: rest) _ hpre hlen]
  rfl

/-- Witness for C6 amended: loop ended at once by an "X" response, the
reply is the following response's "Y". -/
theorem claim_C6_witness :
    turnReply { task := "q".data,
                responses := [] ++ { content := "X".data, tool_calls := [] }
                  :: { content := "Y".data, tool_calls := [] } :: [],
                skill := okSkill, hasTools := true } []
      = ({ content := "Y".data, tool_calls := [] } : MockResponse).content :=
  claim_C6_reply_from_stream [] "q".data okSkill []
    { content := "X".data, tool_calls := [] }
    { content := "Y".data, tool_calls := [] } []
    (by intro r hr; cases hr) rfl (by decide)

/-- The C6 scenario as one executable turn. -/
def twoReplyTurn : TurnScript :=
  { task := "q".data,
    responses := [ { content := "X".data }, { content := "Y".data } ],
    skill := okSkill, hasTools := true }

/-- Counterexample to C6 as stated: the completion response that ends the
loop carries text "X", but the committed reply is "Y" — the text of the
separate streaming response consumed afterwards. -/
theorem claim_C6_counterexample :
    (twoReplyTurn.responses.getD 0 default).content = "X".data ∧
    (executeTask twoReplyTurn []).2 = "Y".data ∧
    ("Y".data : Str) ≠ "X".data := by
  refine ⟨by decide, by decide, by decide⟩

/-!
## What the validator actually checks (claim C8)
-/

/-- Claim C8, amended: validate reports no violation exactly when (a) a
non-empty history starts with a user message, and (b) every tool message
has, scanning backward within its round (no user message in between), an
assistant message whose invocation list is NON-EMPTY — the invocation ids
themselves are never compared with the tool message's invocation_id. -/
theorem claim_C8_validator_rules (h : List Msg) :
    validate h = [] ↔
      (∀ m : Msg, h.head? = some m → m.role = Role.user) ∧
      (∀ (i : Nat) (m : Msg), h[i]? = some m → m.role = Role.tool →
        ∃ (j : Nat) (a : Msg), j < i ∧ h[j]? = some a ∧
          a.role = Role.assistant ∧ a.tool_calls ≠ [] ∧
          ∀ (k : Nat) (mk : Msg), j < k → k < i → h[k]? = some mk →
            mk.role ≠ Role.user) :=
  validate_eq_nil_iff h

/-- A three-message history whose tool message references invocation id "B"
while the only assistant invocation has id "A". -/
def mismatchedIdHistory : List Msg :=
  [ userMsg "q".data,
    { role := Role.assistant, content := "c".data,
      tool_calls := [{ id := "A".data, name := "s".data,
                       arguments := "x".data }] },
    { role := Role.tool, content := "r".data, tool_call_id := some "B".data } ]

/-- Counterexample to C8 as stated: the tool message's invocation_id "B"
matches no assistant invocation (the only id is "A"), yet validate reports
no violation — the backward scan only requires some assistant message with
a non-empty invocation list. -/
theorem claim_C8_counterexample :
    validate mismatchedIdHistory = [] ∧
    ((mismatchedIdHistory.getD 1 default).tool_calls.map ToolCall.id
      = ["A".data]) ∧
    (mismatchedIdHistory.getD 2 default).tool_call_id = some "B".data :=
  ⟨by decide, by decide, by decide⟩

/-!
## Failure semantics (claim C7)

The mock provider of the test suite never raises, so the exception paths of
execute_task are modelled by a variant of the turn in which each queued
provider interaction may instead raise: the queue holds Except values, and
chat_complete / chat raise (propagate Except.error) when they pop one.
All history mutation sits after every provider call in the source, which
the model mirrors by committing only in the final ok branch.  A capability
failure is not an exception: MockSkillSet.execute_skill returns a result
object with success=False, which the tool loop folds into the tool
message's content.
-/

/-- A turn script whose provider interactions can raise. -/
structure FTurnScript where
  task : Str
  responses : List (Except Str MockResponse)
  skill : Str → SkillResult
  hasTools : Bool

/-- The tool loop over a fallible queue: popping an error raises it. -/
def toolLoopE (skill : Str → SkillResult) (hasTools : Bool) :
    Nat → List (Except Str MockResponse) → List Msg →
      Except Str (List Msg × List (Except Str MockResponse))
  | 0, q, ms => Except.ok (ms, q)
  | fuel + 1, q, ms =>
      if hasTools = false then Except.ok (ms, q)
      else
        match q with
        | [] => Except.ok (ms, [])
        | Except.error e :: _ => Except.error e
        | Except.ok r :: q' =>
            if r.tool_calls = [] then Except.ok (ms, q')
            else toolLoopE skill hasTools fuel q'
              (ms ++ assistantCallMsg r :: r.tool_calls.map (toolMsg skill))

/-- The final streaming call over a fallible queue. -/
def chatStreamTextE :
    List (Except Str MockResponse) →
      Except Str (Str × List (Except Str MockResponse))
  | [] => Except.ok (NO_MORE, [])
  | Except.error e :: _ => Except.error e
  | Except.ok r :: q' => Except.ok (r.content, q')

/-- execute_task against a fallible provider: any raised error propagates
before anything is committed; otherwise commit and trim as usual. -/
def executeTaskE (ts : FTurnScript) (history : List Msg) :
    Except Str (List Msg × Str) :=
  match toolLoopE ts.skill ts.hasTools 5 ts.responses
      (systemPromptMsg :: (history ++ [userMsg ts.task])) with
  | Except.error e => Except.error e
  | Except.ok (msgs, q) =>
      match chatStreamTextE q with
      | Except.error e => Except.error e
      | Except.ok (fullResponse, _) =>
          Except.ok
            (trimHistory 6 24000
              (history ++ ((msgs.drop (1 + history.length)).map truncateTool
                ++ (if pyStrip fullResponse = [] then []
                    else [assistantReply fullResponse]))),
             fullResponse)

/-- The caller's view of the session: on an exception the stored history is
exactly what it was before the call. -/
def sessionAfter (ts : FTurnScript) (history : List Msg) : List Msg :=
  match executeTaskE ts history with
  | Except.ok (h', _) => h'
  | Except.error _ => history

/-- A never-raising wrapping of an ordinary turn script. -/
def okScript (ts : TurnScript) : FTurnScript :=
  { task := ts.task, responses := ts.responses.map Except.ok,
    skill := ts.skill, hasTools := ts.hasTools }

/-- A provider queue that raises e after pre successful tool rounds. -/
def errScript (task : Str) (skill : Str → SkillResult)
    (pre : List MockResponse) (e : Str)
    (rest : List (Except Str MockResponse)) : FTurnScript :=
  { task := task, responses := pre.map Except.ok ++ Except.error e :: rest,
    skill := skill, hasTools := true }

lemma toolLoopE_map_ok (skill : Str → SkillResult) (hasTools : Bool) :
    ∀ (fuel : Nat) (q : List MockResponse) (ms : List Msg),
      toolLoopE skill hasTools fuel (q.map Except.ok) ms
        = Except.ok ((toolLoop skill hasTools fuel q ms).1,
            (toolLoop skill hasTools fuel q ms).2.map Except.ok) := by
  intro fuel
  induction fuel with
  | zero => intro q ms; rfl
  | succ fuel ih =>
      intro q ms
      cases q with
      | nil =>
          by_cases hht : hasTools = false <;>
            simp [toolLoopE, toolLoop, hht]
      | cons r q' =>
          by_cases hht : hasTools = false
          · simp [toolLoopE, toolLoop, hht]
          · by_cases htc : r.tool_calls = []
            · simp only [List.map_cons]
              rw [toolLoopE, toolLoop]
              rw [if_neg hht, if_neg hht, if_pos htc, if_pos htc]
            · simp only [List.map_cons]
              rw [toolLoopE, toolLoop]
              rw [if_neg hht, if_neg hht, if_neg htc, if_neg htc]
              exact ih q' _

lemma chatStreamTextE_map_ok (q : List MockResponse) :
    chatStreamTextE (q.map Except.ok)
      = Except.ok ((chatStreamText q).1, (chatStreamText q).2.map Except.ok) := by
  cases q with
  | nil => rfl
  | cons r q' => rfl

/-- An error entry actually reached by the tool loop either propagates out
of the loop or is left at the head of the queue for the streaming call. -/
lemma toolLoopE_hits_error (skill : Str → SkillResult) (e : Str)
    (rest : List (Except Str MockResponse)) :
    ∀ (pre : List MockResponse) (fuel : Nat) (ms : List Msg),
      (∀ r ∈ pre, r.tool_calls ≠ []) → pre.length ≤ fuel →
      toolLoopE skill true fuel (pre.map Except.ok ++ Except.error e :: rest) ms
          = Except.error e
        ∨ ∃ ms', toolLoopE skill true fuel
            (pre.map Except.ok ++ Except.error e :: rest) ms
            = Except.ok (ms', Except.error e :: rest) := by
  intro pre
  induction pre with
  | nil =>
      intro fuel ms _ _
      cases fuel with
      | zero => exact Or.inr ⟨ms, rfl⟩
      | succ f =>
          left
          simp only [List.map_nil, List.nil_append]
          rw [toolLoopE]
          rw [if_neg (by simp)]
  | cons r pre ih =>
      intro fuel ms hpre hlen
      cases fuel with
      | zero => simp at hlen
      | succ f =>
          have hr : r.tool_calls ≠ [] := hpre r (List.mem_cons_self r pre)
          simp only [List.map_cons, List.cons_append]
          rw [toolLoopE]
          rw [if_neg (by simp)]
          rw [if_neg hr]
          exact ih f _ (fun x hx => hpre x (List.mem_cons_of_mem r hx))
            (by simpa using hlen)

/-- Claim C7: (a) a completion-interface failure raised at any point the
turn actually reaches — during one of the up-to-5 tool rounds or during the
final streaming call — propagates to the caller, and the session history is
exactly what it was before the call; (b) with a never-raising provider the
turn always completes, whatever the skill table returns — a capability
failure never raises; (c) a failed skill's error description becomes the
content of its tool message. -/
theorem claim_C7_failure_semantics :
    (∀ (h : List Msg) (task : Str) (skill : Str → SkillResult)
       (pre : List MockResponse) (e : Str)
       (rest : List (Except Str MockResponse)),
       (∀ r ∈ pre, r.tool_calls ≠ []) → pre.length ≤ 5 →
       executeTaskE (errScript task skill pre e rest) h = Except.error e
         ∧ sessionAfter (errScript task skill pre e rest) h = h) ∧
    (∀ (ts : TurnScript) (h : List Msg),
       executeTaskE (okScript ts) h = Except.ok (executeTask ts h)) ∧
    (∀ (skill : Str → SkillResult) (tc : ToolCall) (e : Str),
       (skill tc.name).success = false → (skill tc.name).error = some e →
       e ≠ [] → (toolMsg skill tc).content = e) := by
  refine ⟨?_, ?_, ?_⟩
  · intro h task skill pre e rest hpre hlen
    have herr : executeTaskE (errScript task skill pre e rest) h
        = Except.error e := by
      rw [executeTaskE]
      simp only [errScript]
      rcases toolLoopE_hits_error skill e rest pre 5
          (systemPromptMsg :: (h ++ [userMsg task])) hpre hlen
        with herr | ⟨ms', hok⟩
      · rw [herr]
      · rw [hok]
        rfl
    exact ⟨herr, by rw [sessionAfter, herr]⟩
  · intro ts h
    obtain ⟨msgs, q, hq⟩ : ∃ msgs q,
        toolLoop ts.skill ts.hasTools 5 ts.responses
          (systemPromptMsg :: (h ++ [userMsg ts.task])) = (msgs, q) :=
      ⟨_, _, rfl⟩
    have h1 : toolLoopE ts.skill ts.hasTools 5 (ts.responses.map Except.ok)
        (systemPromptMsg :: (h ++ [userMsg ts.task]))
        = Except.ok (msgs, q.map Except.ok) := by
      rw [toolLoopE_map_ok, hq]
    rw [executeTaskE]
    simp only [okScript]
    rw [h1]
    show (match chatStreamTextE (q.map Except.ok) with
      | Except.error e => Except.error e
      | Except.ok (fullResponse, _) =>
          Except.ok
            (trimHistory 6 24000
              (h ++ ((msgs.drop (1 + h.length)).map truncateTool
                ++ (if pyStrip fullResponse = [] then []
                    else [assistantReply fullResponse]))),
             fullResponse)) = Except.ok (executeTask ts h)
    rw [chatStreamTextE_map_ok]
    show Except.ok
        (trimHistory 6 24000
          (h ++ ((msgs.drop (1 + h.length)).map truncateTool
            ++ (if pyStrip (chatStreamText q).1 = [] then []
                else [assistantReply (chatStreamText q).1]))),
         (chatStreamText q).1) = Except.ok (executeTask ts h)
    simp only [executeTask, committedHistory, turnNewMessages, turnReply,
      turnMessages, hq]
  · intro skill tc e hfail herr hne
    rw [toolMsg]
    have hres : toolResultStr (skill tc.name) = e := by
      rw [toolResultStr, if_neg (by rw [hfail]; intro hc; cases hc), herr]
      show (if e = [] then FAIL_TEXT else e) = e
      rw [if_neg hne]
    rw [hres, if_neg hne]

/-- A skill table whose single entry always fails with error text. -/
def downSkill : Str → SkillResult :=
  fun _ => { success := false, result := [], error := some "down".data }

/-- Witness for C7 at concrete inputs: the error propagates with the
session history untouched; the all-ok wrapping of the concrete small-tool
turn completes; a failed skill's error text lands in the tool message. -/
theorem claim_C7_witness :
    (executeTaskE (errScript "q".data okSkill [] "boom".data []) []
        = Except.error "boom".data
      ∧ sessionAfter (errScript "q".data okSkill [] "boom".data []) [] = []) ∧
    executeTaskE (okScript smallToolTurn) []
      = Except.ok (executeTask smallToolTurn []) ∧
    (toolMsg downSkill smallCall).content = "down".data := by
  refine ⟨?_, ?_, ?_⟩
  · exact claim_C7_failure_semantics.1 [] "q".data okSkill [] "boom".data []
      (by intro r hr; cases hr) (by decide)
  · exact claim_C7_failure_semantics.2.1 smallToolTurn []
  · exact claim_C7_failure_semantics.2.2 downSkill smallCall "down".data
      rfl rfl (by decide)

/-!
## The plain-text E2E engine and round retention (claim C2)

E2EConversationEngine.chat appends the user input and the assistant reply,
then trims.  Its _trim_history is the same two-stage algorithm as
_trim_conversation_history (self.max_rounds for the round bound, MAX_CHARS
= 24000 for the budget); it lacks only the early return on an empty
history, on which the two agree (both stages leave an empty history
empty), so trimHistory serves both.
-/

/-- One chat call of the E2E engine. -/
def e2eChat (maxRounds : Nat) (h : List Msg) (userInput reply : Str) :
    List Msg :=
  trimHistory maxRounds 24000 (h ++ [userMsg userInput, assistantReply reply])

/-- A sequence of E2E turns (input, reply pairs) from an empty history. -/
def e2eRun (maxRounds : Nat) (turns : List (Str × Str)) : List Msg :=
  turns.foldl (fun h t => e2eChat maxRounds h t.1 t.2) []

/-- The two messages of one E2E round. -/
def e2eRound (t : Str × Str) : List Msg := [userMsg t.1, assistantReply t.2]

/-- The history formed by a list of E2E rounds. -/
def roundsFlat (l : List (Str × Str)) : List Msg := (l.map e2eRound).flatten

lemma roundsFlat_cons (t : Str × Str) (l : List (Str × Str)) :
    roundsFlat (t :: l)
      = userMsg t.1 :: assistantReply t.2 :: roundsFlat l := by
  simp [roundsFlat, e2eRound]

lemma roundsFlat_append (a b : List (Str × Str)) :
    roundsFlat (a ++ b) = roundsFlat a ++ roundsFlat b := by
  simp [roundsFlat]

lemma userCount_roundsFlat (l : List (Str × Str)) :
    userCount (roundsFlat l) = l.length := by
  induction l with
  | nil => rfl
  | cons t l ih =>
      rw [roundsFlat_cons]
      simp only [userCount, List.countP_cons] at ih ⊢
      simp [userMsg, assistantReply, ih]

lemma userIdxs_roundsFlat_cons (t : Str × Str) (l : List (Str × Str)) :
    userIdxs (roundsFlat (t :: l))
      = 0 :: (userIdxs (roundsFlat l)).map (· + 2) := by
  rw [roundsFlat_cons]
  rw [userIdxs_head_user rfl]
  congr 1
  have h1 : userIdxs (assistantReply t.2 :: roundsFlat l)
      = (userIdxs (roundsFlat l)).map (· + 1) := by
    rw [userIdxs, if_neg (by intro hc; cases hc)]
  rw [h1, List.map_map]
  apply List.map_congr_left
  intro x _
  simp [Function.comp]

lemma userIdxs_roundsFlat_getElem (l : List (Str × Str)) (j : Nat)
    (hj : j < l.length) :
    (userIdxs (roundsFlat l))[j]? = some (2 * j) := by
  induction l generalizing j with
  | nil => simp at hj
  | cons t l ih =>
      rw [userIdxs_roundsFlat_cons]
      cases j with
      | zero => simp
      | succ k =>
          simp only [List.getElem?_cons_succ, List.getElem?_map]
          rw [ih k (by simpa using hj)]
          simp only [Option.map_some', Option.some.injEq]
          omega

lemma roundsFlat_drop2 (k : Nat) :
    ∀ (l : List (Str × Str)),
      (roundsFlat l).drop (2 * k) = roundsFlat (l.drop k) := by
  induction k with
  | zero => intro l; simp
  | succ k ih =>
      intro l
      cases l with
      | nil => simp [roundsFlat]
      | cons t l' =>
          rw [roundsFlat_cons]
          rw [show 2 * (k + 1) = 2 * k + 1 + 1 by omega]
          simp only [List.drop_succ_cons]
          rw [ih l']


lemma totalChars_roundsFlat_le (R : Nat) (hR : 1 ≤ R)
    (l : List (Str × Str))
    (hb : ∀ t ∈ l, R * (t.1.length + t.2.length) ≤ 24000)
    (hlen : l.length ≤ R) :
    totalChars (roundsFlat l) ≤ 24000 := by
  have key : ∀ (l : List (Str × Str)),
      (∀ t ∈ l, R * (t.1.length + t.2.length) ≤ 24000) →
      R * totalChars (roundsFlat l) ≤ l.length * 24000 := by
    intro l hb
    induction l with
    | nil => simp [roundsFlat, totalChars]
    | cons t l ih =>
        rw [roundsFlat_cons]
        have h1 := hb t (List.mem_cons_self t l)
        have h2 := ih (fun x hx => hb x (List.mem_cons_of_mem t hx))
        simp only [totalChars, List.map_cons, List.sum_cons, userMsg,
          assistantReply] at h2 ⊢
        have hsplit : R * (t.1.length + (t.2.length
              + (List.map (fun m => m.content.length) (roundsFlat l)).sum))
            = R * (t.1.length + t.2.length)
              + R * (List.map (fun m => m.content.length) (roundsFlat l)).sum := by
          ring
        rw [hsplit]
        simp only [List.length_cons]
        have hexp : (l.length + 1) * 24000 = l.length * 24000 + 24000 := by
          ring
        omega
  have h3 := key l hb
  have h4 : l.length * 24000 ≤ R * 24000 := Nat.mul_le_mul_right _ hlen
  have h5 : R * totalChars (roundsFlat l) ≤ R * 24000 := le_trans h3 h4
  exact Nat.le_of_mul_le_mul_left h5 (by omega)

/-- Trimming a history of at most R+1 rounds, each within its per-round
share of the budget, keeps the last min(count, R) rounds. -/
lemma trimHistory_roundsFlat (R : Nat) (hR : 1 ≤ R)
    (m : List (Str × Str)) (hm : m ≠ []) (hlen : m.length ≤ R + 1)
    (hb : ∀ t ∈ m, R * (t.1.length + t.2.length) ≤ 24000) :
    trimHistory R 24000 (roundsFlat m)
      = roundsFlat (m.drop (m.length - R)) := by
  have hcount : userCount (roundsFlat m) = m.length := userCount_roundsFlat m
  have hne : roundsFlat m ≠ [] := by
    cases m with
    | nil => exact absurd rfl hm
    | cons t l' => rw [roundsFlat_cons]; simp
  rw [trimHistory, if_neg hne]
  have hlu : (userIdxs (roundsFlat m)).length = m.length := by
    rw [length_userIdxs, hcount]
  have hAeq : roundTrim R (roundsFlat m)
      = roundsFlat (m.drop (m.length - R)) := by
    rcases Nat.lt_or_ge R m.length with hgt | hle
    · have hmlen : m.length = R + 1 := by omega
      rw [roundTrim, if_pos (by rw [hlu]; omega)]
      have hidx : ((userIdxs (roundsFlat m)).length - R)
          % (userIdxs (roundsFlat m)).length = 1 := by
        rw [hlu, hmlen]
        have : R + 1 - R = 1 := by omega
        rw [this]
        exact Nat.mod_eq_of_lt (by omega)
      rw [hidx]
      have hget : (userIdxs (roundsFlat m))[1]? = some 2 := by
        have := userIdxs_roundsFlat_getElem m 1 (by omega)
        simpa using this
      have hgetD : (userIdxs (roundsFlat m)).getD 1 0 = 2 := by
        rw [List.getD_eq_getElem?_getD, hget]
        rfl
      rw [hgetD]
      have hdrop := roundsFlat_drop2 1 m
      rw [show 2 * 1 = 2 by omega] at hdrop
      rw [hdrop, hmlen]
      rw [show R + 1 - R = 1 by omega]
    · rw [roundTrim_eq_self_of_le (by rw [hcount]; omega)]
      rw [show m.length - R = 0 by omega, List.drop_zero]
  rw [hAeq]
  apply byteTrim_eq_self
  rintro ⟨hb1, _⟩
  have hble : totalChars (roundsFlat (m.drop (m.length - R))) ≤ 24000 := by
    apply totalChars_roundsFlat_le R hR
    · intro t ht
      exact hb t (List.drop_subset _ _ ht)
    · rw [List.length_drop]
      omega
  omega

/-- After any number of bounded turns, the E2E history is exactly the flat
of the last min(count, R) rounds. -/
lemma e2eRun_eq (R : Nat) (hR : 1 ≤ R) :
    ∀ (l : List (Str × Str)),
      (∀ t ∈ l, R * (t.1.length + t.2.length) ≤ 24000) →
      e2eRun R l = roundsFlat (l.drop (l.length - R)) := by
  intro l
  induction l using List.reverseRecOn with
  | nil =>
      intro _
      simp [e2eRun, roundsFlat]
  | append_singleton l t ih =>
      intro hb
      have hbl : ∀ x ∈ l, R * (x.1.length + x.2.length) ≤ 24000 :=
        fun x hx => hb x (by simp [hx])
      have hbt : R * (t.1.length + t.2.length) ≤ 24000 := hb t (by simp)
      have hstep : e2eRun R (l ++ [t]) = e2eChat R (e2eRun R l) t.1 t.2 := by
        rw [e2eRun, List.foldl_append]
        rfl
      rw [hstep, ih hbl, e2eChat]
      have hjoin : roundsFlat (l.drop (l.length - R))
            ++ [userMsg t.1, assistantReply t.2]
          = roundsFlat (l.drop (l.length - R) ++ [t]) := by
        rw [roundsFlat_append]
        rfl
      rw [hjoin]
      have hklen : (l.drop (l.length - R)).length = l.length - (l.length - R) :=
        List.length_drop _ _
      have hmlen2 : (l.drop (l.length - R) ++ [t]).length
          = l.length - (l.length - R) + 1 := by
        rw [List.length_append, hklen]
        rfl
      have happly := trimHistory_roundsFlat R hR (l.drop (l.length - R) ++ [t])
        (by simp) (by rw [hmlen2]; omega)
        (by
          intro x hx
          rcases List.mem_append.mp hx with hx | hx
          · exact hbl x (List.drop_subset _ _ hx)
          · rcases List.mem_singleton.mp hx with rfl
            exact hbt)
      rw [happly]
      have hfinal : (l.drop (l.length - R) ++ [t]).drop
            ((l.drop (l.length - R) ++ [t]).length - R)
          = (l ++ [t]).drop ((l ++ [t]).length - R) := by
        rcases Nat.lt_or_ge l.length R with hlt | hge
        · have h0 : l.length - R = 0 := by omega
          rw [h0, List.drop_zero]
        · have hkl : l.length - (l.length - R) = R := by omega
          rw [hmlen2, hkl, show R + 1 - R = 1 by omega]
          have hd1 : (l.drop (l.length - R) ++ [t]).drop 1
              = l.drop (l.length - R + 1) ++ [t] := by
            rw [List.drop_append_of_le_length (by rw [hklen]; omega)]
            congr 1
            rw [List.drop_drop]
          rw [hd1]
          rw [show (l ++ [t]).length - R = l.length + 1 - R by simp]
          rw [List.drop_append_of_le_length (by omega)]
          congr 2
          omega
      rw [hfinal]

/-- Claim C2, amended: with a positive round limit R and every turn small
enough that R rounds always fit the 24000-character budget (so the byte
stage never evicts), after N ≥ R sequential completed turns the history
holds exactly R user messages and its oldest retained user message is the
(N−R+1)-th input.  (Without the budget proviso the byte stage can cut the
history to as few as 2 rounds, see the counterexample.) -/
theorem claim_C2_round_retention (R : Nat) (turns : List (Str × Str))
    (hR : 1 ≤ R) (hN : R ≤ turns.length)
    (hb : ∀ t ∈ turns, R * (t.1.length + t.2.length) ≤ 24000) :
    userCount (e2eRun R turns) = R ∧
    (e2eRun R turns).head?
      = (turns[turns.length - R]?).map (fun t => userMsg t.1) := by
  have heq := e2eRun_eq R hR turns hb
  rw [heq]
  constructor
  · rw [userCount_roundsFlat, List.length_drop]
    omega
  · have hkne : turns.drop (turns.length - R) ≠ [] := by
      intro hnil
      have := congrArg List.length hnil
      rw [List.length_drop] at this
      simp at this
      omega
    obtain ⟨x, rest, hxr⟩ := List.exists_cons_of_ne_nil hkne
    rw [hxr, roundsFlat_cons]
    have hx : turns[turns.length - R]? = some x := by
      rw [← List.head?_drop, hxr]
      rfl
    rw [hx]
    rfl

/-- Three short turns for the C2 witness. -/
def threeTurns : List (Str × Str) :=
  [("a".data, "b".data), ("c".data, "d".data), ("e".data, "f".data)]

/-- Witness for C2 amended at R = 2, N = 3: two rounds retained, the
oldest retained user message is the 2nd input. -/
theorem claim_C2_witness :
    userCount (e2eRun 2 threeTurns) = 2 ∧
    (e2eRun 2 threeTurns).head?
      = (threeTurns[threeTurns.length - 2]?).map (fun t => userMsg t.1) :=
  claim_C2_round_retention 2 threeTurns (by decide) (by decide) (by decide)

/-- An 8100-character reply. -/
def hugeReply : Str := List.replicate 8100 'x'

/-- Three turns whose three rounds together exceed the 24000-character
budget while any two rounds fit. -/
def hugeTurns : List (Str × Str) :=
  [(['a'], hugeReply), (['b'], hugeReply), (['c'], hugeReply)]

/-- Counterexample to C2 as stated: R = 3, N = 3 ≥ R, yet after the third
turn the byte-budget stage evicts the oldest round and only 2 user
messages remain, not R = 3. -/
theorem claim_C2_counterexample :
    hugeTurns.length = 3 ∧ userCount (e2eRun 3 hugeTurns) = 2 := by
  constructor
  · rfl
  · have h1 : e2eChat 3 [] ['a'] hugeReply
        = [userMsg ['a'], assistantReply hugeReply] := by
      show trimHistory 3 24000 [userMsg ['a'], assistantReply hugeReply] = _
      rw [trimHistory, if_neg (by decide)]
      rw [roundTrim_eq_self_of_le (by decide)]
      exact byteTrim_eq_self (by rintro ⟨_, hc⟩; revert hc; decide)
    have h2 : e2eChat 3 [userMsg ['a'], assistantReply hugeReply] ['b'] hugeReply
        = [userMsg ['a'], assistantReply hugeReply,
           userMsg ['b'], assistantReply hugeReply] := by
      show trimHistory 3 24000
        [userMsg ['a'], assistantReply hugeReply,
         userMsg ['b'], assistantReply hugeReply] = _
      rw [trimHistory, if_neg (by decide)]
      rw [roundTrim_eq_self_of_le (by decide)]
      exact byteTrim_eq_self (by rintro ⟨_, hc⟩; revert hc; decide)
    have hlen : hugeReply.length = 8100 := by
      rw [hugeReply, List.length_replicate]
    have htot : totalChars
        [userMsg ['a'], assistantReply hugeReply,
         userMsg ['b'], assistantReply hugeReply,
         userMsg ['c'], assistantReply hugeReply] = 24303 := by
      simp [totalChars, userMsg, assistantReply, hlen]
    have h3 : e2eChat 3
        [userMsg ['a'], assistantReply hugeReply,
         userMsg ['b'], assistantReply hugeReply] ['c'] hugeReply
        = [userMsg ['b'], assistantReply hugeReply,
           userMsg ['c'], assistantReply hugeReply] := by
      show trimHistory 3 24000
        [userMsg ['a'], assistantReply hugeReply,
         userMsg ['b'], assistantReply hugeReply,
         userMsg ['c'], assistantReply hugeReply] = _
      rw [trimHistory, if_neg (by decide)]
      rw [roundTrim_eq_self_of_le (by decide)]
      rw [byteTrim_step]
      rw [if_pos (⟨by rw [htot]; decide, by decide⟩ :
        ((24000 : Nat) : Int) < (totalChars
          [userMsg ['a'], assistantReply hugeReply,
           userMsg ['b'], assistantReply hugeReply,
           userMsg ['c'], assistantReply hugeReply] : Int)
        ∧ 2 < (userIdxs
          [userMsg ['a'], assistantReply hugeReply,
           userMsg ['b'], assistantReply hugeReply,
           userMsg ['c'], assistantReply hugeReply]).length)]
      rw [show nextRoundStart
          [userMsg ['a'], assistantReply hugeReply,
           userMsg ['b'], assistantReply hugeReply,
           userMsg ['c'], assistantReply hugeReply] = 2 by decide]
      show byteTrim 24000
        [userMsg ['b'], assistantReply hugeReply,
         userMsg ['c'], assistantReply hugeReply] _ = _
      exact byteTrim_eq_self (by rintro ⟨_, hc⟩; revert hc; decide)
    have hrun : e2eRun 3 hugeTurns
        = e2eChat 3 (e2eChat 3 (e2eChat 3 [] ['a'] hugeReply) ['b'] hugeReply)
          ['c'] hugeReply := by
      simp only [e2eRun, hugeTurns, List.foldl_cons, List.foldl_nil]
    rw [hrun, h1, h2, h3]
    decide
